import Mathlib

/-!
Verification of the network-graph repository core against its specification.

The JavaScript source is shallowly embedded: strings are `String` viewed as
`List Char`, JavaScript `Map`s are insertion-ordered association lists,
JavaScript numbers used as counters are `Nat` (with `Option Nat` where the
code can produce `NaN`), and node radii (floats) are exact rationals kept
as unreduced numerator/denominator pairs.  Asynchronous
`classifyActor` is embedded as an atomic state-transition function for its
synchronous prefix (JavaScript is single-threaded and the code suspends only
after the in-flight map is populated).  Non-ASCII case mappings of
`toLowerCase` and full Unicode regex classes are modelled on the ASCII
fragment actually exercised by the data.
-/

namespace JsStr

/-- ECMAScript whitespace (the characters matched by `\s` and removed by
`String.prototype.trim`). -/
def isJsWS (c : Char) : Bool :=
  c.toNat = 9 || c.toNat = 10 || c.toNat = 11 || c.toNat = 12 || c.toNat = 13 ||
  c.toNat = 32 || c.toNat = 160 || c.toNat = 0x1680 ||
  (0x2000 ≤ c.toNat && c.toNat ≤ 0x200A) ||
  c.toNat = 0x2028 || c.toNat = 0x2029 || c.toNat = 0x202F ||
  c.toNat = 0x205F || c.toNat = 0x3000 || c.toNat = 0xFEFF

/-- ASCII space. -/
def sp : Char := ' '

/-- ASCII apostrophe (the character class of the possessive regex in
`normalizeName` holds two ASCII apostrophes). -/
def apos : Char := Char.ofNat 39

/-- ASCII lower-casing, the fragment of `toLowerCase` relevant here. -/
def lowA (c : Char) : Char :=
  if 65 ≤ c.toNat ∧ c.toNat ≤ 90 then Char.ofNat (c.toNat + 32) else c

/-- Word character for the regex `\b` boundary: `[A-Za-z0-9_]`. -/
def isWordChar (c : Char) : Bool :=
  (65 ≤ c.toNat && c.toNat ≤ 90) || (97 ≤ c.toNat && c.toNat ≤ 122) ||
  (48 ≤ c.toNat && c.toNat ≤ 57) || c.toNat = 95

/-- `String.prototype.trim` on character lists. -/
def trimL (l : List Char) : List Char :=
  ((l.dropWhile isJsWS).reverse.dropWhile isJsWS).reverse

/-- `String.prototype.trim`. -/
def trimS (s : String) : String := String.mk (trimL s.data)

/-- Engine of `replace(/\s+/g, ' ')`: every maximal whitespace run becomes a
single space; the boolean records whether the previous character was
whitespace. -/
def collapseGo : Bool → List Char → List Char
  | _, [] => []
  | prev, c :: cs =>
    if isJsWS c then
      if prev then collapseGo true cs else sp :: collapseGo true cs
    else c :: collapseGo false cs

/-- `replace(/\s+/g, ' ')`. -/
def collapseL (l : List Char) : List Char := collapseGo false l

/-- Does `l` start with `pat` (exact characters)? -/
def startsWithL : List Char → List Char → Bool
  | [], _ => true
  | _ :: _, [] => false
  | p :: ps, c :: cs => p == c && startsWithL ps cs

/-- Does `l` contain `pat` as a contiguous run (JavaScript `includes`)? -/
def hasSub : List Char → List Char → Bool
  | l, pat =>
    match l with
    | [] => startsWithL pat []
    | _ :: cs => startsWithL pat l || hasSub cs pat

/-- JavaScript `split(sep)` for a one-character separator, on character
lists (structural, so that it computes inside the kernel). -/
def splitOnCharL (sep : Char) : List Char → List (List Char)
  | [] => [[]]
  | c :: cs =>
    let r := splitOnCharL sep cs
    if c = sep then [] :: r
    else
      match r with
      | h :: t => (c :: h) :: t
      | [] => [[c]]

/-- Test of an anchored case-insensitive regex `\bAs$`-shaped pattern: the
lower-cased input must end with `alt ++ tail` for one of the alternatives,
with a `\b` boundary before the alternative (alternatives and tails are
ASCII letters, so the boundary is just a non-word character or the start).
The boundary check is applied to what remains after the reversed pattern. -/
def reBoundary : List Char → Bool
  | [] => true
  | c :: _ => !isWordChar c

def reTestTail (alts : List (List Char)) (tail : List Char) (s : List Char) : Bool :=
  let r := (s.map lowA).reverse
  alts.any fun alt =>
    let rpat := (alt ++ tail).reverse
    startsWithL rpat r && reBoundary (r.drop rpat.length)

end JsStr

namespace WikidataClassifier

open JsStr

/-- Alternatives of `/\b(government|minister|official|partie|compan|organization)s$/i`. -/
def pluralAlts : List (List Char) :=
  ["government".data, "minister".data, "official".data, "partie".data,
   "compan".data, "organization".data]

/-- Alternatives of `/\b(compan|agenc)ies$/i`. -/
def iesAlts : List (List Char) := ["compan".data, "agenc".data]

/-- The hard-coded `preservePlurals` list of `normalizeName`. -/
def preservePlurals : List String :=
  ["Philippines", "Netherlands", "Maldives", "Seychelles", "Bahamas",
   "Comoros", "Marshall Islands", "Solomon Islands", "Cayman Islands",
   "Virgin Islands", "Falkland Islands", "Cook Islands", "Faroe Islands",
   "United States", "United Nations", "European Union", "Arab Emirates",
   "Central African States", "Pacific Islands"]

/-- The `preservePlurals.some(p => normalized.toLowerCase().includes(p.toLowerCase()))` check. -/
def shouldPreservePlural (l : List Char) : Bool :=
  preservePlurals.any fun p => hasSub (l.map lowA) (p.data.map lowA)

/-- `replace(/['']s?$/i, '')`: strip one trailing apostrophe optionally
followed by `s`/`S`. -/
def stripPossessive (l : List Char) : List Char :=
  match l.reverse with
  | [] => l
  | c :: rest =>
    if c = apos then rest.reverse
    else
      match rest with
      | [] => l
      | c' :: rest' =>
        if (c = 's' ∨ c = 'S') ∧ c' = apos then rest'.reverse else l

/-- `replace(/s$/i, '')`: drop a trailing `s`/`S`. -/
def stripTrailingS (l : List Char) : List Char :=
  match l.reverse with
  | c :: rest => if c = 's' ∨ c = 'S' then rest.reverse else l
  | [] => l

/-- `replace(/ies$/i, 'y')`: replace a trailing `ies` (case-insensitive) by `y`. -/
def stripIesY (l : List Char) : List Char :=
  match l.reverse with
  | c3 :: c2 :: c1 :: rest =>
    if (c3 = 's' ∨ c3 = 'S') ∧ (c2 = 'e' ∨ c2 = 'E') ∧ (c1 = 'i' ∨ c1 = 'I') then
      (('y' :: rest).reverse)
    else l
  | _ => l

/-- The conditional singularization block of `normalizeName`. -/
def singStep (l : List Char) : List Char :=
  if shouldPreservePlural l then l
  else if reTestTail pluralAlts ['s'] l then stripTrailingS l
  else if reTestTail iesAlts ['i', 'e', 's'] l then stripIesY l
  else l

/-- `WikidataClassifier.normalizeName`, translated step by step from the
source: blank guard, trim, possessive strip, conditional singularization,
whitespace collapse and final trim. -/
def normalizeName (name : String) : String :=
  if name = "" ∨ trimS name = "" then name
  else
    let n1 := trimL name.data
    let n2 := stripPossessive n1
    let n3 := singStep n2
    String.mk (trimL (collapseL n3))

end WikidataClassifier

section NormalizeScratch

open JsStr WikidataClassifier

example : normalizeName "governments" = "government" := by decide
example : normalizeName "ministers" = "minister" := by decide
example : normalizeName "parties" = "partie" := by decide
example : normalizeName "companies" = "company" := by decide
example : normalizeName "agencies" = "agency" := by decide
example : normalizeName "United States" = "United States" := by decide
example : normalizeName "  a   b  " = "a b" := by decide
example : normalizeName (String.mk ['Q', 'a', 't', 'a', 'r', apos, 's']) = "Qatar" := by decide
example : normalizeName (String.mk [apos, apos]) = String.mk [apos] := by decide
example : normalizeName (String.mk [apos]) = "" := by decide

end NormalizeScratch

namespace JsMap

/-- Lookup in an insertion-ordered association list (JavaScript `Map.get` /
object property read). -/
def lookupA {β : Type} (m : List (String × β)) (k : String) : Option β :=
  match m.find? (fun kv => kv.1 == k) with
  | some kv => some kv.2
  | none => none

/-- JavaScript `Map.set`: update in place if the key exists, else append. -/
def setA {β : Type} (m : List (String × β)) (k : String) (v : β) : List (String × β) :=
  if m.any (fun kv => kv.1 == k) then
    m.map (fun kv => if kv.1 == k then (kv.1, v) else kv)
  else m ++ [(k, v)]

/-- JavaScript `Map.delete`. -/
def delA {β : Type} (m : List (String × β)) (k : String) : List (String × β) :=
  m.filter (fun kv => kv.1 != k)

end JsMap

namespace WikidataClassifier

open JsStr JsMap

/-- The `manualOverrides` table (network-graph-renderer.js), in source order. -/
def manualOverrides : List (String × String) :=
  [("Israel", "country"), ("Jordan", "country"), ("Georgia", "country"),
   ("Chad", "country"), ("Niger", "country"), ("Mali", "country"),
   ("Turkey", "country"), ("Poland", "country"), ("Hungary", "country"),
   ("Cyprus", "country"), ("Malta", "country"), ("Monaco", "country"),
   ("Andorra", "country"), ("Luxembourg", "country"), ("Liechtenstein", "country"),
   ("San Marino", "country"), ("Vatican", "country"), ("Palestine", "country"),
   ("Hamas", "political_organization"),
   ("Congress", "legislative_branch"), ("Senate", "legislative_branch"),
   ("House of Representatives", "legislative_branch"), ("Parliament", "legislative_branch"),
   ("House of Commons", "legislative_branch"), ("House of Lords", "legislative_branch"),
   ("National Assembly", "legislative_branch"), ("Legislative Assembly", "legislative_branch"),
   ("General Assembly", "legislative_branch"), ("Bundestag", "legislative_branch"),
   ("Bundesrat", "legislative_branch"), ("Duma", "legislative_branch"),
   ("Knesset", "legislative_branch"), ("Diet", "legislative_branch")]

/-- The `classifications` map from Wikidata entity ids to category tags
(network-graph-renderer.js), in source order, duplicate keys kept (every
duplicate carries the same tag, so first-match lookup agrees with the
JavaScript object's last-wins semantics). -/
def classifications : List (String × String) :=
  [("Q6256", "country"), ("Q3024240", "country"),
   ("Q7275", "region"), ("Q1048835", "region"), ("Q82794", "region"),
   ("Q56061", "region"), ("Q15284", "region"), ("Q515", "region"),
   ("Q1549591", "region"), ("Q5119", "region"), ("Q1637706", "region"),
   ("Q5", "person"), ("Q215627", "person"),
   ("Q82955", "public_office"), ("Q372436", "public_office"),
   ("Q212071", "public_office"), ("Q1097498", "public_office"),
   ("Q30461", "public_office"), ("Q48352", "public_office"),
   ("Q2285706", "public_office"), ("Q189290", "public_office"),
   ("Q193391", "public_office"), ("Q40348", "public_office"),
   ("Q294126", "public_office"), ("Q5096", "public_office"),
   ("Q11204", "legislative_branch"), ("Q35749", "legislative_branch"),
   ("Q486839", "legislative_branch"), ("Q13218630", "legislative_branch"),
   ("Q18018860", "legislative_branch"), ("Q15647814", "legislative_branch"),
   ("Q140686", "legislative_branch"), ("Q4164871", "legislative_branch"),
   ("Q1055894", "legislative_branch"), ("Q19546", "legislative_branch"),
   ("Q1752346", "legislative_branch"), ("Q16707842", "legislative_branch"),
   ("Q4261532", "legislative_branch"), ("Q1752346", "legislative_branch"),
   ("Q217799", "legislative_branch"), ("Q375928", "legislative_branch"),
   ("Q1752346", "legislative_branch"), ("Q4261532", "legislative_branch"),
   ("Q7278", "political_organization"), ("Q2659904", "political_organization"),
   ("Q327333", "political_organization"), ("Q1391145", "political_organization"),
   ("Q1371037", "political_organization"), ("Q61951", "political_organization"),
   ("Q15911314", "political_organization"), ("Q2467461", "political_organization"),
   ("Q4120211", "political_organization"), ("Q16334295", "political_organization"),
   ("Q2824523", "political_organization"), ("Q748019", "political_organization"),
   ("Q43229", "organization"), ("Q4830453", "organization"),
   ("Q783794", "organization"), ("Q891723", "organization"),
   ("Q1616075", "organization"), ("Q4830453", "organization"),
   ("Q163740", "organization"), ("Q31855", "organization"),
   ("Q3918", "organization"), ("Q875538", "organization")]

/-- One SPARQL result binding: the `instanceOf.value` URI when present. -/
structure WDBinding where
  instanceOf : Option String
  deriving DecidableEq, Repr

/-- `value.split('/').pop()`. -/
def lastSegment (v : String) : String :=
  String.mk (((splitOnCharL '/' v.data).getLast?).getD [])

/-- The initial `classificationCounts` object literal.  Note it has no
`legislative_branch` key. -/
def initialCounts : List (String × Option Nat) :=
  [("country", some 0), ("region", some 0), ("person", some 0),
   ("public_office", some 0), ("political_organization", some 0),
   ("organization", some 0)]

/-- `classificationCounts[classification]++` with JavaScript semantics: a
present numeric count is incremented; incrementing a missing property stores
`undefined + 1 = NaN` (modelled `none`), and `NaN + 1` stays `NaN`. -/
def jsIncr (cs : List (String × Option Nat)) (k : String) : List (String × Option Nat) :=
  if cs.any (fun kv => kv.1 == k) then
    cs.map (fun kv => if kv.1 == k then (kv.1, kv.2.map (· + 1)) else kv)
  else cs ++ [(k, none)]

/-- `Math.max(...)` over the count values: `NaN` (modelled `none`) is
absorbing.  All stored counts are nonnegative, so folding from `0` agrees
with `Math.max` of the nonempty value list. -/
def jsMaxVals (vs : List (Option Nat)) : Option Nat :=
  vs.foldl (fun acc v =>
    match acc, v with
    | some a, some b => some (max a b)
    | _, _ => none) (some 0)

/-- JavaScript `===` between the numbers stored in the counts object:
`NaN === x` is false for every `x`. -/
def jsEqNum (a b : Option Nat) : Bool :=
  match a, b with
  | some x, some y => x == y
  | _, _ => false

/-- `classificationCounts[c] === maxCount` where the property read can yield
`undefined` (and `undefined === x` is false for every number `x`). -/
def jsEqProp (l : Option (Option Nat)) (m : Option Nat) : Bool :=
  match l with
  | some v => jsEqNum v m
  | none => false

/-- Tie-break priority order hard-coded in `analyzeWikidataResults`. -/
def priorityOrder : List String :=
  ["country", "region", "legislative_branch", "political_organization",
   "public_office", "organization", "person"]

/-- `WikidataClassifier.analyzeWikidataResults` (network-graph-renderer.js).
The argument is `none` when `data.results`/`data.results.bindings` is
missing; a binding whose `instanceOf.value` is absent or empty is skipped
(JavaScript truthiness). -/
def analyzeWikidataResults (data : Option (List WDBinding)) : String :=
  match data with
  | none => "unknown"
  | some bindings =>
    if bindings.length = 0 then "unknown"
    else
      let counts := bindings.foldl (fun cs b =>
        match b.instanceOf with
        | none => cs
        | some v =>
          if v = "" then cs
          else
            match lookupA classifications (lastSegment v) with
            | some cls => jsIncr cs cls
            | none => cs) initialCounts
      let maxCount := jsMaxVals (counts.map (fun kv => kv.2))
      if jsEqNum maxCount (some 0) then "unknown"
      else
        match priorityOrder.find? (fun c => jsEqProp (lookupA counts c) maxCount) with
        | some c => c
        | none =>
          match counts.find? (fun kv => jsEqNum kv.2 maxCount) with
          | some kv => kv.1
          | none => "unknown"

/-- Mutable state of a `WikidataClassifier` instance: the classification
cache, the in-flight `pendingQueries` map (promises named by numeric ids),
the list of names for which `performWikidataQuery` has been dispatched, and
a supply of fresh promise ids. -/
structure WDState where
  cache : List (String × String)
  pendingQueries : List (String × Nat)
  dispatched : List String
  nextPromiseId : Nat
  deriving DecidableEq, Repr

/-- Outcome of the synchronous prefix of `classifyActor`: an immediate
result, joining an already pending promise, or dispatching a fresh query. -/
inductive StartOutcome where
  | result : String → StartOutcome
  | joined : Nat → StartOutcome
  | dispatch : Nat → StartOutcome
  deriving DecidableEq, Repr

/-- The synchronous prefix of `classifyActor` (network-graph-renderer.js):
blank guard, manual overrides (original then normalized), cache (original
then normalized), pending queries (original then normalized), and finally
promise creation and registration under both forms.  JavaScript runs this
prefix atomically; the function suspends only afterwards. -/
def classifyStart (s : WDState) (actor : String) : WDState × StartOutcome :=
  if actor = "" ∨ trimS actor = "" then (s, .result "unknown")
  else
    let originalActor := trimS actor
    let normalizedActor := normalizeName originalActor
    match lookupA manualOverrides originalActor with
    | some ov => ({ s with cache := setA s.cache originalActor ov }, .result ov)
    | none =>
      match lookupA manualOverrides normalizedActor with
      | some ov => ({ s with cache := setA s.cache originalActor ov }, .result ov)
      | none =>
        match lookupA s.cache originalActor with
        | some c => (s, .result c)
        | none =>
          match lookupA s.cache normalizedActor with
          | some c => ({ s with cache := setA s.cache originalActor c }, .result c)
          | none =>
            match lookupA s.pendingQueries originalActor with
            | some pid => (s, .joined pid)
            | none =>
              match lookupA s.pendingQueries normalizedActor with
              | some pid => (s, .joined pid)
              | none =>
                let pid := s.nextPromiseId
                let p1 := setA s.pendingQueries originalActor pid
                let p2 := if normalizedActor ≠ originalActor then setA p1 normalizedActor pid else p1
                ({ s with pendingQueries := p2,
                          dispatched := s.dispatched ++ [normalizedActor],
                          nextPromiseId := pid + 1 }, .dispatch pid)

/-- Completion of a dispatched `classifyActor` (the code after `await
queryPromise`): on success cache under both forms and clear the in-flight
entries; on failure clear them and cache `unknown` under the original form. -/
def classifyResolve (s : WDState) (actor result : String) (ok : Bool) : WDState :=
  let originalActor := trimS actor
  let normalizedActor := normalizeName originalActor
  if ok then
    let c1 := setA s.cache originalActor result
    let c2 := if normalizedActor ≠ originalActor then setA c1 normalizedActor result else c1
    { s with cache := c2,
             pendingQueries := delA (delA s.pendingQueries originalActor) normalizedActor }
  else
    { s with pendingQueries := delA (delA s.pendingQueries originalActor) normalizedActor,
             cache := setA s.cache originalActor "unknown" }

end WikidataClassifier

section ClassifierScratch

open JsStr JsMap WikidataClassifier

example :
    analyzeWikidataResults (some [⟨some "http://www.wikidata.org/entity/Q11204"⟩]) =
      "unknown" := by decide

example :
    analyzeWikidataResults (some [⟨some "http://www.wikidata.org/entity/Q6256"⟩]) =
      "country" := by decide

example :
    analyzeWikidataResults
      (some [⟨some "http://www.wikidata.org/entity/Q5"⟩,
             ⟨some "http://www.wikidata.org/entity/Q6256"⟩]) = "country" := by decide

example :
    (classifyStart ⟨[], [], [], 0⟩ "Israel").2 = .result "country" := by decide

example :
    (classifyStart ⟨[], [], [], 0⟩ "The governments").2 = .dispatch 0 := by decide

example :
    ((classifyStart (classifyStart ⟨[], [], [], 0⟩ "The governments").1
        "The  governments").2) = .joined 0 := by decide

end ClassifierScratch

namespace NetworkGraphRenderer

open JsStr JsMap

/-- An exact nonnegative rational as an unreduced numerator/denominator
pair: the embedding of the float arithmetic computing node radii (which all
verified claims treat as opaque data). -/
abbrev QPair := Nat × Nat

/-- Comparison of the fraction pairs (denominators are positive here). -/
def qle (a b : QPair) : Bool := a.1 * b.2 ≤ b.1 * a.2

/-- `Math.min` on fraction pairs. -/
def qmin (a b : QPair) : QPair := if qle a b then a else b

/-- `Math.max` on fraction pairs. -/
def qmax (a b : QPair) : QPair := if qle a b then b else a

/-- An event record as read by `processData`: the `Actor`, `Target` and
`Action` fields plus the political metadata fields attached by
`createPoliticalDataRecords` (absent fields are `none`/`false`). -/
structure Rcd where
  Actor : String
  Target : String
  Action : String
  isPoliticalConnection : Bool
  sourceRole : Option String
  targetRole : Option String
  relationship : Option String
  deriving DecidableEq, Repr

/-- A graph node as built by `processData` / consumed by the merge: `radius`
is `none` until assigned (JavaScript `undefined`). -/
structure GNode where
  id : String
  name : String
  type : String
  count : Nat
  actions : List String
  records : List Rcd
  role : Option String
  isPoliticalFigure : Bool
  radius : Option QPair
  deriving DecidableEq, Repr

/-- A graph link; `source`/`target` are node ids. -/
structure GLink where
  source : String
  target : String
  action : String
  count : Nat
  actions : List String
  records : List Rcd
  isPoliticalConnection : Bool
  relationship : Option String
  deriving DecidableEq, Repr

/-- `record.Actor.split(',').map(a => a.trim()).filter(a => a.length > 0)`. -/
def splitTrim (s : String) : List String :=
  (((splitOnCharL ',' s.data).map (fun l => String.mk (trimL l))).filter (fun t => t ≠ ""))

/-- JavaScript `Set.add` on an insertion-ordered deduplicated list. -/
def addSet (l : List String) (x : String) : List String :=
  if l.contains x then l else l ++ [x]

/-- First node with the given id (`nodeMap.get`). -/
def findNode (m : List GNode) (idv : String) : Option GNode :=
  m.find? (fun n => n.id == idv)

/-- `nodeMap.set(n.id, n)`: replace the entry with this id, else append. -/
def setNode (m : List GNode) (n : GNode) : List GNode :=
  if m.any (fun x => x.id == n.id) then
    m.map (fun x => if x.id == n.id then n else x)
  else m ++ [n]

/-- The fresh node created for an unseen actor name. -/
def newActorNode (r : Rcd) (a : String) : GNode :=
  { id := a, name := a,
    type := if r.isPoliticalConnection then "political_figure" else "actor",
    count := 0, actions := [], records := [],
    role := r.sourceRole,
    isPoliticalFigure := r.isPoliticalConnection,
    radius := none }

/-- `if (!nodeMap.has(actor)) nodeMap.set(actor, ...)` for an actor. -/
def ensureActorNode (r : Rcd) (m : List GNode) (a : String) : List GNode :=
  if (findNode m a).isSome then m else m ++ [newActorNode r a]

/-- The shared bookkeeping on the (now present) node: increment count, add
the action label, append the record; for actors additionally upgrade to
political `both` when a political record hits a non-political node. -/
def bumpActorNode (r : Rcd) (action : String) (m1 : List GNode) (a : String) : List GNode :=
  match findNode m1 a with
  | some nd =>
    let nd1 := { nd with count := nd.count + 1,
                         actions := addSet nd.actions action,
                         records := nd.records ++ [r] }
    let nd2 :=
      if r.isPoliticalConnection ∧ nd1.type ≠ "political_figure" then
        { nd1 with type := "both", role := r.sourceRole, isPoliticalFigure := true }
      else nd1
    setNode m1 nd2
  | none => m1

/-- The body of the `actors.forEach` loop of `processData`. -/
def addActor (r : Rcd) (action : String) (m : List GNode) (a : String) : List GNode :=
  bumpActorNode r action (ensureActorNode r m a) a

/-- The fresh node created for an unseen target name. -/
def newTargetNode (r : Rcd) (t : String) : GNode :=
  { id := t, name := t,
    type := if r.isPoliticalConnection then "political_figure" else "target",
    count := 0, actions := [], records := [],
    role := r.targetRole,
    isPoliticalFigure := r.isPoliticalConnection,
    radius := none }

/-- The `else` branch of the target upsert: type adjustments on an existing
node (in particular an `actor` node seen as a target becomes `both`). -/
def targetTypeAdjust (r : Rcd) (nd : GNode) : GNode :=
  if r.isPoliticalConnection ∧ ¬nd.isPoliticalFigure then
    { nd with type := if nd.type = "actor" then "both" else "political_figure",
              role := r.targetRole, isPoliticalFigure := true }
  else if nd.type = "actor" ∧ ¬r.isPoliticalConnection then
    { nd with type := "both" }
  else if nd.type = "political_figure" ∧ ¬r.isPoliticalConnection then
    { nd with type := "both" }
  else nd

/-- The `if (!nodeMap.has(target)) ... else ...` part of the target upsert. -/
def adjustOrCreateTargetNode (r : Rcd) (m : List GNode) (t : String) : List GNode :=
  if (findNode m t).isSome then
    match findNode m t with
    | some nd => setNode m (targetTypeAdjust r nd)
    | none => m
  else m ++ [newTargetNode r t]

/-- The final count/action/record bookkeeping of the target upsert. -/
def bumpTargetNode (r : Rcd) (action : String) (m1 : List GNode) (t : String) : List GNode :=
  match findNode m1 t with
  | some nd =>
    setNode m1 { nd with count := nd.count + 1,
                         actions := addSet nd.actions action,
                         records := nd.records ++ [r] }
  | none => m1

/-- The body of the `targets.forEach` loop of `processData`. -/
def addTarget (r : Rcd) (action : String) (m : List GNode) (t : String) : List GNode :=
  bumpTargetNode r action (adjustOrCreateTargetNode r m t) t

/-- `linkMap.get`. -/
def findL (m : List (String × GLink)) (k : String) : Option GLink := lookupA m k

/-- The fresh link object created for an unseen `(actor, target)` pair. -/
def newLink (r : Rcd) (action a t : String) : GLink :=
  { source := a, target := t, action := action,
    count := 0, actions := [], records := [],
    isPoliticalConnection := r.isPoliticalConnection,
    relationship := r.relationship }

/-- `if (!linkMap.has(linkId)) linkMap.set(linkId, ...)`. -/
def ensureLink (r : Rcd) (action : String) (lm : List (String × GLink)) (a t : String) :
    List (String × GLink) :=
  let key := a ++ "->" ++ t
  if (findL lm key).isSome then lm else lm ++ [(key, newLink r action a t)]

/-- The count/action/record bookkeeping on the (now present) link. -/
def bumpLink (r : Rcd) (action : String) (lm1 : List (String × GLink)) (key : String) :
    List (String × GLink) :=
  match findL lm1 key with
  | some l =>
    setA lm1 key { l with count := l.count + 1,
                          actions := addSet l.actions action,
                          records := l.records ++ [r] }
  | none => lm1

/-- The body of the link-creation loop of `processData`, keyed by the string
`actor ++ "->" ++ target`. -/
def addLink (r : Rcd) (action : String) (lm : List (String × GLink)) (a t : String) :
    List (String × GLink) :=
  bumpLink r action (ensureLink r action lm a t) (a ++ "->" ++ t)

/-- One iteration of `data.forEach` in `processData`: records with an empty
actor or target field are skipped entirely. -/
def processRecord (st : List GNode × List (String × GLink)) (r : Rcd) :
    List GNode × List (String × GLink) :=
  if r.Actor = "" ∨ r.Target = "" then st
  else
    let actors := splitTrim r.Actor
    let targets := splitTrim r.Target
    let action := if r.Action = "" then "unknown" else r.Action
    let nm1 := actors.foldl (addActor r action) st.1
    let nm2 := targets.foldl (addTarget r action) nm1
    let lm := actors.foldl (fun lm a => targets.foldl (fun lm t => addLink r action lm a t) lm) st.2
    (nm2, lm)

/-- `Math.max(...this.nodes.map(n => n.count))`, folded from `0` (every node
in a nonempty build has `count ≥ 1`, and with no nodes the result is never
used). -/
def maxCountOf (nodes : List GNode) : Nat :=
  (nodes.map (fun n => n.count)).foldl max 0

/-- `node.radius = Math.max(8, Math.min(25, (node.count / maxCount) * 20 + 8))`
as an exact fraction with denominator `maxCount`. -/
def radiusFor (count maxC : Nat) : QPair :=
  qmax (8, 1) (qmin (25, 1) (20 * count + 8 * maxC, maxC))

/-- The node/link construction of `processData` (the part independent of the
change-detection guard): fold all records, then assign radii. -/
def buildGraph (data : List Rcd) : List GNode × List GLink :=
  let nm := data.foldl processRecord ([], [])
  let nodes := nm.1
  let links := (nm.2).map (fun kv => kv.2)
  let maxC := maxCountOf nodes
  (nodes.map (fun n => { n with radius := some (radiusFor n.count maxC) }), links)

/-- The renderer state read and written by `processData`. -/
structure PDState where
  nodes : List GNode
  links : List GLink
  lastDataHash : String
  lastProcessedData : List Rcd
  deriving DecidableEq, Repr

/-- `NetworkGraphRenderer.hashData`: record count plus `Actor-Target-Action`
of the first five records, joined with `|`. -/
def hashData (data : List Rcd) : String :=
  if data = [] then "empty"
  else
    let sample := String.intercalate "|"
      ((data.take (min 5 data.length)).map
        (fun r => r.Actor ++ "-" ++ r.Target ++ "-" ++ r.Action))
    toString data.length ++ "-" ++ sample

/-- `NetworkGraphRenderer.processData` with its change-detection guard: on
an empty batch reset; if the hash matches the previous one and nodes exist,
return unchanged; otherwise rebuild. -/
def processData (st : PDState) (data : List Rcd) : PDState :=
  if data = [] then { st with nodes := [], links := [], lastDataHash := "empty" }
  else
    let currentHash := hashData data
    if currentHash = st.lastDataHash ∧ st.nodes.length > 0 then st
    else
      let g := buildGraph data
      { nodes := g.1, links := g.2, lastDataHash := currentHash, lastProcessedData := data }

/-- The dangling-link filter of `renderPoliticalNetwork`: a link survives
only if some node carries its source id and some node its target id (when no
link is invalid the filter is the identity, matching the conditional in the
source). -/
def filterValidLinks (ns : List GNode) (ls : List GLink) : List GLink :=
  ls.filter (fun l => ns.any (fun n => n.id == l.source) && ns.any (fun n => n.id == l.target))

/-- JavaScript truthiness of `!node.radius`: `undefined` and `0` are falsy. -/
def jsFalsyRadius : Option QPair → Bool
  | none => true
  | some q => q.1 == 0

/-- The CSV-node fold step of `mergeWithPoliticalData`: fold into an
existing node of the same id (summing counts, concatenating records,
unioning action sets, setting the type to `both`) or append. -/
def mergeNodeStep (m : List GNode) (cn : GNode) : List GNode :=
  match findNode m cn.id with
  | some pn =>
    setNode m { pn with
      count := pn.count + cn.count,
      records := pn.records ++ cn.records,
      actions := cn.actions.foldl addSet pn.actions,
      type := "both" }
  | none => m ++ [cn]

/-- The CSV-link fold step of `mergeWithPoliticalData`, keyed by
`source ++ "->" ++ target`. -/
def mergeLinkStep (m : List (String × GLink)) (cl : GLink) : List (String × GLink) :=
  match findL m (cl.source ++ "->" ++ cl.target) with
  | some pl =>
    setA m (cl.source ++ "->" ++ cl.target)
      { pl with
        count := pl.count + cl.count,
        records := pl.records ++ cl.records,
        actions := cl.actions.foldl addSet pl.actions }
  | none => m ++ [(cl.source ++ "->" ++ cl.target, cl)]

/-- The final radius pass of `mergeWithPoliticalData` on one node. -/
def mergeRadiusAdjust (maxC : Nat) (n : GNode) : GNode :=
  if jsFalsyRadius n.radius || (n.type == "political_figure") then
    { n with radius := some (qmax (12, 1) (qmin (30, 1) (25 * n.count + 12 * maxC, maxC))) }
  else n

/-- `NetworkGraphRenderer.mergeWithPoliticalData`, as a function of the
stored political graph and the current CSV-derived graph: seed the maps with
the political nodes and links, fold every CSV node and link in (summing
counts, unioning action sets, appending records, setting a shared node's
type to `both`), then recompute radii for nodes without one (or of type
`political_figure`). -/
def mergeWithPoliticalData (politicalNodes : List GNode) (politicalLinks : List GLink)
    (csvNodes : List GNode) (csvLinks : List GLink) : List GNode × List GLink :=
  if politicalNodes.length = 0 then (csvNodes, csvLinks)
  else
    let nm0 := politicalNodes.foldl (fun m n => setNode m n) []
    let lm0 := politicalLinks.foldl
      (fun m l => setA m (l.source ++ "->" ++ l.target) l) ([] : List (String × GLink))
    let nm1 := csvNodes.foldl mergeNodeStep nm0
    let lm1 := csvLinks.foldl mergeLinkStep lm0
    let links := lm1.map (fun kv => kv.2)
    let maxC := maxCountOf nm1
    (nm1.map (mergeRadiusAdjust maxC), links)

end NetworkGraphRenderer

section GraphScratch

open NetworkGraphRenderer

/-- Shorthand for a plain CSV record in examples. -/
def mkRcd (a t act : String) : Rcd :=
  { Actor := a, Target := t, Action := act,
    isPoliticalConnection := false, sourceRole := none, targetRole := none,
    relationship := none }

example :
    ((buildGraph [mkRcd "NATO, EU" "Russia" "condemn"]).1.map (fun n => (n.id, n.type))) =
      [("NATO", "actor"), ("EU", "actor"), ("Russia", "target")] := by decide

example :
    ((buildGraph [mkRcd "NATO, EU" "Russia" "condemn"]).2.map
        (fun l => (l.source, l.target, l.count))) =
      [("NATO", "Russia", 1), ("EU", "Russia", 1)] := by decide

example :
    (((buildGraph [mkRcd "A" "B" "x", mkRcd "B" "C" "y"]).1.find?
        (fun n => n.id == "B")).map (fun n => n.type)) = some "target" := by decide

example :
    (((buildGraph [mkRcd "A" "B" "x", mkRcd "C" "A" "y"]).1.find?
        (fun n => n.id == "A")).map (fun n => n.type)) = some "both" := by decide

example :
    ((buildGraph [mkRcd "United States" "UK" "visit",
                  mkRcd "United States" "UK" "meet"]).2.map
        (fun l => (l.source, l.target, l.count, l.actions))) =
      [("United States", "UK", 2, ["visit", "meet"])] := by decide

example :
    hashData [mkRcd "A" "B" "x", mkRcd "C" "D" "y"] = "2-A-B-x|C-D-y" := by decide

end GraphScratch

namespace PoliticalDataManager

open JsStr JsMap

/-- A reference-catalog entity as read by `buildFigureMap`: `id` is `none`
when the entry is missing its `id` field. -/
structure Figure where
  id : Option String
  alternate_names : List String
  role : Option String
  deriving DecidableEq, Repr

/-- The figure lookup map (JavaScript `Map` from lower-cased name variants
to figure objects). -/
abbrev FMap := List (String × Figure)

/-- `toLowerCase` on strings (ASCII fragment). -/
def lowerS (s : String) : String := String.mk (s.data.map lowA)

/-- The title patterns of `removeCommonTitles`, in source order: each
pattern is a sequence of words, each word optionally followed by a dot and
always by at least one whitespace character. -/
def titlePatterns : List (List (String × Bool)) :=
  [[("sen", true)], [("senator", false)],
   [("rep", true)], [("representative", false)],
   [("gov", true)], [("governor", false)],
   [("pres", true)], [("president", false)],
   [("vice", false), ("president", false)], [("vp", false)],
   [("sec", true)], [("secretary", false)],
   [("attorney", false), ("general", false)],
   [("speaker", false)],
   [("leader", false)],
   [("chair", false)], [("chairman", false)], [("chairwoman", false)],
   [("amb", true)], [("ambassador", false)],
   [("judge", false)], [("justice", false)],
   [("mayor", false)],
   [("dr", true)], [("doctor", false)],
   [("mr", true)], [("mrs", true)], [("ms", true)], [("miss", false)],
   [("the", false), ("honorable", false)], [("hon", true)]]

/-- Consume one pattern word case-insensitively. -/
def matchWordCI : List Char → List Char → Option (List Char)
  | [], rest => some rest
  | _ :: _, [] => none
  | p :: ps, c :: cs => if lowA c == p then matchWordCI ps cs else none

/-- Consume `\.?\s+` (for words with an optional dot) or `\s+`. -/
def consumeDotWs (optDot : Bool) (l : List Char) : Option (List Char) :=
  match l with
  | [] => none
  | c :: cs =>
    if optDot ∧ c = '.' then
      match cs with
      | [] => none
      | d :: _ => if isJsWS d then some (cs.dropWhile isJsWS) else none
    else if isJsWS c then some (l.dropWhile isJsWS) else none

/-- Match one full anchored title pattern, returning the rest of the input. -/
def matchTitleGo : List (String × Bool) → List Char → Option (List Char)
  | [], l => some l
  | (w, d) :: ws, l =>
    match matchWordCI w.data l with
    | some r1 =>
      match consumeDotWs d r1 with
      | some r2 => matchTitleGo ws r2
      | none => none
    | none => none

/-- `PoliticalDataManager.removeCommonTitles`: strip each anchored title
pattern in turn (the `^`-anchored `replace` removes at most one occurrence
per pattern), then trim. -/
def removeCommonTitles (name : String) : String :=
  let l := titlePatterns.foldl
    (fun cur t =>
      match matchTitleGo t cur with
      | some rest => rest
      | none => cur) name.data
  String.mk (trimL l)

/-- The role-keyed title variations of `addCommonTitleVariations`, pushed in
source order. -/
def titleVariations (role baseName : String) : List String :=
  (if hasSub role.data "senator".data then
    ["sen. " ++ baseName, "senator " ++ baseName] else []) ++
  (if hasSub role.data "representative".data then
    ["rep. " ++ baseName, "representative " ++ baseName] else []) ++
  (if hasSub role.data "governor".data then
    ["gov. " ++ baseName, "governor " ++ baseName] else []) ++
  (if hasSub role.data "president".data ∧ ¬(hasSub role.data "vice".data = true) then
    ["pres. " ++ baseName, "president " ++ baseName] else []) ++
  (if hasSub role.data "vice president".data then
    ["vice president " ++ baseName, "vp " ++ baseName] else []) ++
  (if hasSub role.data "secretary".data then
    ["sec. " ++ baseName, "secretary " ++ baseName] else []) ++
  (if hasSub role.data "speaker".data then
    ["speaker " ++ baseName] else []) ++
  (if hasSub role.data "attorney general".data then
    ["attorney general " ++ baseName] else [])

/-- The hard-coded `prominentLastNames` shortlist. -/
def prominentLastNames : List String :=
  ["trump", "biden", "harris", "obama", "clinton", "sanders", "warren",
   "desantis", "newsom", "abbott", "whitmer", "pence"]

/-- `id.toLowerCase().split(' ').pop()`. -/
def lastToken (s : String) : String :=
  String.mk (((splitOnCharL ' ' (lowerS s).data).getLast?).getD [])

/-- The uniqueness scan of `addLastNameVariations` over all catalog figures.
Reading `otherFigure.id.toLowerCase()` throws a `TypeError` (`.error`) when
some other figure is missing its `id`. -/
def uniqueScan (fid lastName : String) : List Figure → Except Unit Bool
  | [] => .ok true
  | o :: os =>
    match o.id with
    | none => .error ()
    | some oid =>
      if oid ≠ fid then
        if lastToken oid = lastName then .ok false else uniqueScan fid lastName os
      else uniqueScan fid lastName os

/-- `addLastNameVariations`: for a two-token name whose last token is on the
shortlist, add the bare last name if no other figure shares it.  The boolean
result records a thrown `TypeError`. -/
def addLastNameVariations (allFigs : List Figure) (fid : String) (fig : Figure)
    (m : FMap) : FMap × Bool :=
  let nameParts := (splitOnCharL ' ' (lowerS fid).data).map String.mk
  if 2 ≤ nameParts.length then
    let lastName := (nameParts.getLast?).getD ""
    if prominentLastNames.contains lastName then
      match uniqueScan fid lastName allFigs with
      | .error _ => (m, true)
      | .ok true => (setA m lastName fig, false)
      | .ok false => (m, false)
    else (m, false)
  else (m, false)

/-- Processing of one figure inside `buildFigureMap` (primary name, its
title-stripped form, alternate names and their stripped forms, role-derived
title variations, last-name variation).  Reading `figure.id.toLowerCase()`
on an entry missing `id` throws, reported in the boolean. -/
def processFigure (allFigs : List Figure) (m : FMap) (fig : Figure) : FMap × Bool :=
  match fig.id with
  | none => (m, true)
  | some fid =>
    let primaryName := lowerS fid
    let m1 := setA m primaryName fig
    let pwt := removeCommonTitles primaryName
    let m2 := if pwt ≠ primaryName then setA m1 pwt fig else m1
    let m3 := fig.alternate_names.foldl (fun mm alt =>
      let al := lowerS alt
      let mm1 := setA mm al fig
      let awt := removeCommonTitles al
      if awt ≠ al then setA mm1 awt fig else mm1) m2
    let baseName := lowerS fid
    let role := match fig.role with | some r => lowerS r | none => ""
    let m4 := (titleVariations role baseName).foldl (fun mm v => setA mm v fig) m3
    addLastNameVariations allFigs fid fig m4

/-- The `politicalFigures.forEach` of `buildFigureMap`: a thrown `TypeError`
aborts the loop, leaving the partially built map. -/
def buildFigureMapGo (allFigs : List Figure) : List Figure → FMap → FMap × Bool
  | [], acc => (acc, false)
  | f :: fs, acc =>
    let r := processFigure allFigs acc f
    if r.2 then (r.1, true) else buildFigureMapGo allFigs fs r.1

/-- `PoliticalDataManager.buildFigureMap` (after `figureMap.clear()`). -/
def buildFigureMap (figs : List Figure) : FMap × Bool :=
  buildFigureMapGo figs figs []

/-- Mutable state of a `PoliticalDataManager`. -/
structure PDMState where
  politicalFigures : List Figure
  figureMap : FMap
  isLoaded : Bool
  deriving DecidableEq, Repr

/-- The fetched catalog document: `nodes` is the entity array (`none` models
a document without a `nodes` field, read as `data.nodes || []`). -/
structure Catalog where
  nodes : Option (List Figure)
  deriving DecidableEq, Repr

/-- `PoliticalDataManager.loadPoliticalData`: `none` input models a failed
fetch/parse.  Any exception thrown inside `buildFigureMap` lands in the
`catch` block, which records the failure (`isLoaded = false`) and returns
`false`; the figure list and the partially built map keep their values. -/
def loadPoliticalData (s : PDMState) (fetched : Option Catalog) : PDMState × Bool :=
  match fetched with
  | none => ({ s with isLoaded := false }, false)
  | some d =>
    let figs := d.nodes.getD []
    let r := buildFigureMap figs
    if r.2 then
      ({ politicalFigures := figs, figureMap := r.1, isLoaded := false }, false)
    else
      ({ politicalFigures := figs, figureMap := r.1, isLoaded := true }, true)

end PoliticalDataManager

section PDMScratch

open JsMap PoliticalDataManager

example : removeCommonTitles "sen. alice grey" = "alice grey" := by decide
example : removeCommonTitles "vice president bob" = "bob" := by decide
example : removeCommonTitles "senx" = "senx" := by decide

example :
    (loadPoliticalData ⟨[], [], false⟩
      (some ⟨some [⟨some "Alice Grey", [], some "Senator"⟩,
                   ⟨none, [], none⟩,
                   ⟨some "Bob Stone", [], none⟩]⟩)) =
    (⟨[⟨some "Alice Grey", [], some "Senator"⟩, ⟨none, [], none⟩,
       ⟨some "Bob Stone", [], none⟩],
      [("alice grey", ⟨some "Alice Grey", [], some "Senator"⟩),
       ("sen. alice grey", ⟨some "Alice Grey", [], some "Senator"⟩),
       ("senator alice grey", ⟨some "Alice Grey", [], some "Senator"⟩)],
      false⟩, false) := by decide

end PDMScratch

section ClaimTheoremsBatch1

open JsStr JsMap WikidataClassifier NetworkGraphRenderer PoliticalDataManager

/-- C2: the aggregation of external-lookup results cannot return
`legislative_branch` even when a returned identifier maps to it: the
`classificationCounts` object literal omits that key, so the increment
stores `NaN`, which poisons `Math.max` and makes every `===` comparison
fail, and the function falls through to `unknown`.  Evaluated at the failing
input: one binding whose identifier `Q11204` (parliament) is mapped to
`legislative_branch` by the classifier's own table. -/
theorem claim_C2_legislative_tally_falls_to_unknown :
    lookupA classifications "Q11204" = some "legislative_branch" ∧
    analyzeWikidataResults (some [⟨some "http://www.wikidata.org/entity/Q11204"⟩]) =
      "unknown" ∧
    analyzeWikidataResults (some [⟨some "http://www.wikidata.org/entity/Q11204"⟩]) ≠
      "legislative_branch" := by
  refine ⟨by decide, by decide, by decide⟩

/-- C3 counterexample: after building
`[(Actor: "A", Target: "B"), (Actor: "B", Target: "C")]`, node `B` — seen
first as a target and then as an actor — has role tag `target`, not `both`:
the `actors.forEach` branch of `processData` never promotes an existing
non-political node. -/
theorem claim_C3_counterexample :
    ((((buildGraph [mkRcd "A" "B" "x", mkRcd "B" "C" "y"]).1.find?
        (fun n => n.id == "B")).map (fun n => n.type)) = some "target") ∧
    ¬ ((((buildGraph [mkRcd "A" "B" "x", mkRcd "B" "C" "y"]).1.find?
        (fun n => n.id == "B")).map (fun n => n.type)) = some "both") := by
  refine ⟨by decide, by decide⟩

/-- C3 (amended): promotion of a node's role tag to `both` happens only when
a name previously seen as an actor later appears as a target, not the
reverse: after building `[(A, B), (B, C)]` node `B` keeps role tag
`target`, while after `[(A, B), (C, A)]` node `A` (actor first, target
second) has role tag `both`. -/
theorem claim_C3_target_then_actor_keeps_target :
    ((((buildGraph [mkRcd "A" "B" "x", mkRcd "B" "C" "y"]).1.find?
        (fun n => n.id == "B")).map (fun n => n.type)) = some "target") ∧
    ((((buildGraph [mkRcd "A" "B" "x", mkRcd "C" "A" "y"]).1.find?
        (fun n => n.id == "A")).map (fun n => n.type)) = some "both") := by
  refine ⟨by decide, by decide⟩

/-- C4 counterexample: a three-entry catalog whose second entity is missing
`id` makes the whole load fail — `loadPoliticalData` returns `false`, the
manager stays unloaded, and the well-formed entry after the malformed one is
never indexed — contradicting the claimed skip-and-continue behavior. -/
theorem claim_C4_counterexample :
    (loadPoliticalData ⟨[], [], false⟩
      (some ⟨some [⟨some "Alice Grey", [], some "Senator"⟩,
                   ⟨none, [], none⟩,
                   ⟨some "Bob Stone", [], none⟩]⟩)).2 = false ∧
    (loadPoliticalData ⟨[], [], false⟩
      (some ⟨some [⟨some "Alice Grey", [], some "Senator"⟩,
                   ⟨none, [], none⟩,
                   ⟨some "Bob Stone", [], none⟩]⟩)).1.isLoaded = false ∧
    lookupA (loadPoliticalData ⟨[], [], false⟩
      (some ⟨some [⟨some "Alice Grey", [], some "Senator"⟩,
                   ⟨none, [], none⟩,
                   ⟨some "Bob Stone", [], none⟩]⟩)).1.figureMap "bob stone" = none := by
  refine ⟨by decide, by decide, by decide⟩

/-- C4 (amended): a catalog entry missing `id` makes `buildFigureMap` throw
a `TypeError` at `figure.id.toLowerCase()`; `loadPoliticalData` catches it,
marks the knowledge base unloaded and returns `false`.  Entries processed
before the malformed one remain in the (partial) index; entries after it are
never indexed.  Full evaluation at the three-entry catalog. -/
theorem claim_C4_missing_id_fails_load :
    (loadPoliticalData ⟨[], [], false⟩
      (some ⟨some [⟨some "Alice Grey", [], some "Senator"⟩,
                   ⟨none, [], none⟩,
                   ⟨some "Bob Stone", [], none⟩]⟩)) =
    (⟨[⟨some "Alice Grey", [], some "Senator"⟩, ⟨none, [], none⟩,
       ⟨some "Bob Stone", [], none⟩],
      [("alice grey", ⟨some "Alice Grey", [], some "Senator"⟩),
       ("sen. alice grey", ⟨some "Alice Grey", [], some "Senator"⟩),
       ("senator alice grey", ⟨some "Alice Grey", [], some "Senator"⟩)],
      false⟩, false) := by decide

/-- C5 counterexample: `normalizeName "parties"` yields `"partie"`, not the
claimed `"party"`: `"parties"` matches the first plural branch (alternative
`partie` plus `s`), which merely strips the trailing `s`. -/
theorem claim_C5_counterexample :
    normalizeName "parties" = "partie" ∧ normalizeName "parties" ≠ "party" := by
  refine ⟨by decide, by decide⟩

/-- C5 (amended): the Name Normalizer singularizes the known pluralizable
role suffixes as: `governments` to `government`, `ministers` to `minister`,
`parties` to `partie` (the trailing-`s` strip of the `partie` alternative),
`companies` to `company`, and `agencies` to `agency`. -/
theorem claim_C5_suffix_singularization :
    normalizeName "governments" = "government" ∧
    normalizeName "ministers" = "minister" ∧
    normalizeName "parties" = "partie" ∧
    normalizeName "companies" = "company" ∧
    normalizeName "agencies" = "agency" := by
  refine ⟨by decide, by decide, by decide, by decide, by decide⟩

/-- C8: for the manual-override name `Israel`, `classifyActor` returns
`country` immediately from the override table, for every classifier state:
no external lookup is dispatched, the in-flight map is untouched, and
neither the cache nor the pending map was consulted first (the result and
the state change are independent of their contents). -/
theorem claim_C8_israel_override :
    ∀ s : WDState,
      classifyStart s "Israel" =
        ({ s with cache := setA s.cache "Israel" "country" }, .result "country") := by
  intro s
  rfl

/-- C8 witness: the override answers `country` even from a state whose cache
and in-flight map claim otherwise, without touching them. -/
theorem claim_C8_israel_override_witness :
    classifyStart ⟨[("Israel", "person")], [("Israel", 5)], ["x"], 9⟩ "Israel" =
      (⟨[("Israel", "country")], [("Israel", 5)], ["x"], 9⟩, .result "country") := by
  have h := claim_C8_israel_override ⟨[("Israel", "person")], [("Israel", 5)], ["x"], 9⟩
  rw [h]
  decide

/-- C10: an empty or whitespace-only actor name makes `classifyActor` return
`unknown` immediately: the classifier state — cache, in-flight map,
dispatched queries — is exactly unchanged. -/
theorem claim_C10_blank_name_no_effect :
    ∀ (s : WDState) (a : String), (a = "" ∨ trimS a = "") →
      classifyStart s a = (s, .result "unknown") := by
  intro s a h
  simp only [classifyStart]
  rw [if_pos h]

/-- C10 witness: a three-space name at a nonempty state. -/
theorem claim_C10_blank_name_no_effect_witness :
    (("   " : String) = "" ∨ trimS "   " = "") ∧
    classifyStart ⟨[("x", "country")], [("y", 3)], ["z"], 7⟩ "   " =
      (⟨[("x", "country")], [("y", 3)], ["z"], 7⟩, .result "unknown") := by
  refine ⟨by decide, claim_C10_blank_name_no_effect _ _ (by decide)⟩

end ClaimTheoremsBatch1

namespace NetworkGraphRenderer

/-- The fingerprint field sampled by `hashData`. -/
def rcdKey (r : Rcd) : String × String × String := (r.Actor, r.Target, r.Action)

theorem take_min_five {α : Type} (l : List α) : l.take (min 5 l.length) = l.take 5 := by
  rcases le_total l.length 5 with h | h
  · rw [min_eq_right h, List.take_length, List.take_of_length_le h]
  · rw [min_eq_left h]

/-- Two nonempty batches of equal length whose first five records agree on
`Actor`, `Target` and `Action` have the same fingerprint. -/
theorem hashData_eq_of_sample_eq {b1 b2 : List Rcd}
    (hlen : b1.length = b2.length)
    (hsample : (b1.take 5).map rcdKey = (b2.take 5).map rcdKey) :
    hashData b1 = hashData b2 := by
  by_cases h1 : b1 = []
  · subst h1
    have : b2 = [] := List.eq_nil_of_length_eq_zero hlen.symm
    simp [this]
  · have h2 : b2 ≠ [] := by
      intro h
      refine h1 (List.eq_nil_of_length_eq_zero ?_)
      rw [hlen, h]
      rfl
    simp only [hashData, if_neg h1, if_neg h2]
    have hmap : ∀ b : List Rcd,
        (b.take (min 5 b.length)).map (fun r => r.Actor ++ "-" ++ r.Target ++ "-" ++ r.Action) =
        ((b.take 5).map rcdKey).map (fun k => k.1 ++ "-" ++ k.2.1 ++ "-" ++ k.2.2) := by
      intro b
      rw [take_min_five, List.map_map]
      rfl
    rw [hmap b1, hmap b2, hsample, hlen]

/-- After any `processData` call on a nonempty batch, the stored hash is the
batch's fingerprint (whether the call rebuilt or skipped). -/
theorem processData_lastDataHash {st : PDState} {b : List Rcd} (hb : b ≠ []) :
    (processData st b).lastDataHash = hashData b := by
  simp only [processData, if_neg hb]
  split
  · next h => exact h.1.symm
  · rfl

end NetworkGraphRenderer

section ClaimC9

open NetworkGraphRenderer

/-- C9: the change-detection fingerprint inspects only the record count and
the `Actor`/`Target`/`Action` fields of the first five records, so for two
nonempty batches of equal length agreeing on those sampled fields, a second
`processData` call after a first that produced a nonempty node set leaves
the renderer state (in particular the node and link tables) exactly
unchanged — even when records beyond the sampled prefix differ. -/
theorem claim_C9_fingerprint_skips_rebuild :
    ∀ (s0 : PDState) (b1 b2 : List Rcd),
      b1 ≠ [] → b2 ≠ [] →
      b1.length = b2.length →
      (b1.take 5).map rcdKey = (b2.take 5).map rcdKey →
      (processData s0 b1).nodes ≠ [] →
      processData (processData s0 b1) b2 = processData s0 b1 := by
  intro s0 b1 b2 hb1 hb2 hlen hsample hnodes
  have hhash : hashData b2 = (processData s0 b1).lastDataHash := by
    rw [processData_lastDataHash hb1]
    exact (hashData_eq_of_sample_eq hlen hsample).symm
  have hpos : (processData s0 b1).nodes.length > 0 := List.length_pos.mpr hnodes
  simp only [processData, if_neg hb2]
  rw [if_pos ⟨hhash, hpos⟩]

/-- First batch for the C9 witness: six records. -/
def c9batch1 : List Rcd :=
  [mkRcd "A" "B" "a1", mkRcd "C" "D" "a2", mkRcd "E" "F" "a3",
   mkRcd "G" "H" "a4", mkRcd "I" "J" "a5", mkRcd "K" "L" "a6"]

/-- Second batch for the C9 witness: same length, same first five sampled
records, but the sixth record differs in all three fields. -/
def c9batch2 : List Rcd :=
  [mkRcd "A" "B" "a1", mkRcd "C" "D" "a2", mkRcd "E" "F" "a3",
   mkRcd "G" "H" "a4", mkRcd "I" "J" "a5", mkRcd "M" "N" "other"]

/-- C9 witness: the two six-record batches differ beyond the sampled prefix,
yet the second call is a no-op. -/
theorem claim_C9_fingerprint_skips_rebuild_witness :
    (c9batch1 ≠ [] ∧ c9batch2 ≠ [] ∧ c9batch1.length = c9batch2.length ∧
      (c9batch1.take 5).map rcdKey = (c9batch2.take 5).map rcdKey ∧
      (processData ⟨[], [], "init", []⟩ c9batch1).nodes ≠ [] ∧
      c9batch1 ≠ c9batch2) ∧
    processData (processData ⟨[], [], "init", []⟩ c9batch1) c9batch2 =
      processData ⟨[], [], "init", []⟩ c9batch1 :=
  ⟨⟨by decide, by decide, by decide, by decide, by decide, by decide⟩,
   claim_C9_fingerprint_skips_rebuild ⟨[], [], "init", []⟩ c9batch1 c9batch2
     (by decide) (by decide) (by decide) (by decide) (by decide)⟩

end ClaimC9

namespace NetworkGraphRenderer

/-- Some node of the table carries this id. -/
def hasId (m : List GNode) (x : String) : Prop := ∃ n ∈ m, n.id = x

theorem hasId_append_left {m m' : List GNode} {x : String} (h : hasId m x) :
    hasId (m ++ m') x := by
  obtain ⟨n, hn, hid⟩ := h
  exact ⟨n, List.mem_append_left _ hn, hid⟩

theorem hasId_setNode_mono {m : List GNode} {n : GNode} {x : String} (h : hasId m x) :
    hasId (setNode m n) x := by
  obtain ⟨y, hy, hid⟩ := h
  unfold setNode
  split
  · by_cases hb : y.id = n.id
    · refine ⟨n, List.mem_map.mpr ⟨y, hy, ?_⟩, ?_⟩
      · simp [hb]
      · rw [← hb]
        exact hid
    · refine ⟨y, List.mem_map.mpr ⟨y, hy, ?_⟩, hid⟩
      simp [hb]
  · exact ⟨y, List.mem_append_left _ hy, hid⟩

theorem hasId_setNode_self (m : List GNode) (n : GNode) :
    hasId (setNode m n) n.id := by
  unfold setNode
  split
  · next hany =>
    obtain ⟨y, hy, hb⟩ := List.any_eq_true.mp hany
    refine ⟨n, List.mem_map.mpr ⟨y, hy, ?_⟩, rfl⟩
    simp [hb]
  · exact ⟨n, List.mem_append_right _ (List.mem_singleton_self n), rfl⟩

theorem findNode_some {m : List GNode} {a : String} {nd : GNode}
    (h : findNode m a = some nd) : nd ∈ m ∧ nd.id = a := by
  unfold findNode at h
  refine ⟨List.mem_of_find?_eq_some h, ?_⟩
  have := List.find?_some h
  exact eq_of_beq this

theorem hasId_ensureActorNode_mono {r : Rcd} {m : List GNode} {a x : String}
    (h : hasId m x) : hasId (ensureActorNode r m a) x := by
  unfold ensureActorNode
  split
  · exact h
  · exact hasId_append_left h

theorem hasId_ensureActorNode_self (r : Rcd) (m : List GNode) (a : String) :
    hasId (ensureActorNode r m a) a := by
  unfold ensureActorNode
  split
  · next hs =>
    obtain ⟨nd, hnd⟩ := Option.isSome_iff_exists.mp hs
    obtain ⟨hmem, hid⟩ := findNode_some hnd
    exact ⟨nd, hmem, hid⟩
  · exact ⟨newActorNode r a, List.mem_append_right _ (List.mem_singleton_self _), rfl⟩

theorem hasId_bumpActorNode_mono {r : Rcd} {action : String} {m1 : List GNode} {a x : String}
    (h : hasId m1 x) : hasId (bumpActorNode r action m1 a) x := by
  unfold bumpActorNode
  split
  · exact hasId_setNode_mono h
  · exact h

theorem hasId_bumpActorNode_self {r : Rcd} {action : String} {m1 : List GNode} {a : String}
    (h : hasId m1 a) : hasId (bumpActorNode r action m1 a) a := by
  unfold bumpActorNode
  split
  · next nd hf =>
    have hid := (findNode_some hf).2
    have h2 : ((if r.isPoliticalConnection ∧
        ({ nd with
            count := nd.count + 1,
            actions := addSet nd.actions action,
            records := nd.records ++ [r] } : GNode).type ≠ "political_figure" then
        { nd with
            count := nd.count + 1,
            actions := addSet nd.actions action,
            records := nd.records ++ [r],
            type := "both",
            role := r.sourceRole,
            isPoliticalFigure := true }
      else
        { nd with
            count := nd.count + 1,
            actions := addSet nd.actions action,
            records := nd.records ++ [r] } : GNode)).id = a := by
      split
      · exact hid
      · exact hid
    rw [← h2]
    exact hasId_setNode_self _ _
  · exact h

theorem hasId_addActor_mono {r : Rcd} {action : String} {m : List GNode} {a x : String}
    (h : hasId m x) : hasId (addActor r action m a) x :=
  hasId_bumpActorNode_mono (hasId_ensureActorNode_mono h)

theorem hasId_addActor_self (r : Rcd) (action : String) (m : List GNode) (a : String) :
    hasId (addActor r action m a) a :=
  hasId_bumpActorNode_self (hasId_ensureActorNode_self r m a)

theorem targetTypeAdjust_id (r : Rcd) (nd : GNode) : (targetTypeAdjust r nd).id = nd.id := by
  unfold targetTypeAdjust
  split
  · rfl
  · split
    · rfl
    · split
      · rfl
      · rfl

theorem hasId_adjustOrCreateTargetNode_mono {r : Rcd} {m : List GNode} {t x : String}
    (h : hasId m x) : hasId (adjustOrCreateTargetNode r m t) x := by
  unfold adjustOrCreateTargetNode
  split
  · split
    · exact hasId_setNode_mono h
    · exact h
  · exact hasId_append_left h

theorem hasId_adjustOrCreateTargetNode_self (r : Rcd) (m : List GNode) (t : String) :
    hasId (adjustOrCreateTargetNode r m t) t := by
  unfold adjustOrCreateTargetNode
  split
  · next hs =>
    split
    · next nd hf =>
      have hid := (findNode_some hf).2
      have h2 : (targetTypeAdjust r nd).id = t := by
        rw [targetTypeAdjust_id]
        exact hid
      rw [← h2]
      exact hasId_setNode_self _ _
    · next hf =>
      obtain ⟨nd, hnd⟩ := Option.isSome_iff_exists.mp hs
      rw [hf] at hnd
      cases hnd
  · exact ⟨newTargetNode r t, List.mem_append_right _ (List.mem_singleton_self _), rfl⟩

theorem hasId_bumpTargetNode_mono {r : Rcd} {action : String} {m1 : List GNode} {t x : String}
    (h : hasId m1 x) : hasId (bumpTargetNode r action m1 t) x := by
  unfold bumpTargetNode
  split
  · exact hasId_setNode_mono h
  · exact h

theorem hasId_bumpTargetNode_self {r : Rcd} {action : String} {m1 : List GNode} {t : String}
    (h : hasId m1 t) : hasId (bumpTargetNode r action m1 t) t := by
  unfold bumpTargetNode
  split
  · next nd hf =>
    have hid : ({ nd with
        count := nd.count + 1,
        actions := addSet nd.actions action,
        records := nd.records ++ [r] } : GNode).id = t := (findNode_some hf).2
    rw [← hid]
    exact hasId_setNode_self _ _
  · exact h

theorem hasId_addTarget_mono {r : Rcd} {action : String} {m : List GNode} {t x : String}
    (h : hasId m x) : hasId (addTarget r action m t) x :=
  hasId_bumpTargetNode_mono (hasId_adjustOrCreateTargetNode_mono h)

theorem hasId_addTarget_self (r : Rcd) (action : String) (m : List GNode) (t : String) :
    hasId (addTarget r action m t) t :=
  hasId_bumpTargetNode_self (hasId_adjustOrCreateTargetNode_self r m t)

/-- Folding a node-upserting step over a list of keys: existing ids are kept
and every processed key\'s id is present afterwards. -/
theorem foldl_hasId {α : Type} (step : List GNode → α → List GNode) (key : α → String)
    (hmono : ∀ m a x, hasId m x → hasId (step m a) x)
    (hnew : ∀ m a, hasId (step m a) (key a)) :
    ∀ (l : List α) (m : List GNode),
      (∀ x, hasId m x → hasId (l.foldl step m) x) ∧
      (∀ a ∈ l, hasId (l.foldl step m) (key a)) := by
  intro l
  induction l with
  | nil => exact fun m => ⟨fun _ h => h, fun a ha => absurd ha (List.not_mem_nil a)⟩
  | cons b bs ih =>
    intro m
    refine ⟨fun x hx => ?_, fun a ha => ?_⟩
    · exact (ih (step m b)).1 x (hmono m b x hx)
    · rcases List.mem_cons.mp ha with h | h
      · subst h
        exact (ih (step m a)).1 _ (hnew m a)
      · exact (ih (step m b)).2 a h

end NetworkGraphRenderer

namespace JsMap

theorem mem_setA {β : Type} {m : List (String × β)} {k : String} {v : β}
    {kv : String × β} (h : kv ∈ setA m k v) : kv ∈ m ∨ kv.2 = v := by
  unfold setA at h
  split at h
  · obtain ⟨y, hy, hmap⟩ := List.mem_map.mp h
    by_cases hb : y.1 = k
    · right
      rw [← hmap]
      simp [hb]
    · left
      have : (if y.1 == k then (y.1, v) else y) = y := by simp [hb]
      rw [this] at hmap
      exact hmap ▸ hy
  · rcases List.mem_append.mp h with h' | h'
    · exact Or.inl h'
    · right
      rw [List.mem_singleton.mp h']

theorem lookupA_mem {β : Type} {m : List (String × β)} {k : String} {v : β}
    (h : lookupA m k = some v) : ∃ k', (k', v) ∈ m := by
  unfold lookupA at h
  split at h
  · next kv hf =>
    obtain ⟨rfl⟩ := Option.some.inj h
    exact ⟨kv.1, List.mem_of_find?_eq_some hf⟩
  · cases h

end JsMap

namespace NetworkGraphRenderer

open JsMap

theorem mem_bumpLink {r : Rcd} {action : String} {lm1 : List (String × GLink)}
    {key : String} {kv : String × GLink} (h : kv ∈ bumpLink r action lm1 key) :
    ∃ kv0, kv0 ∈ lm1 ∧ kv.2.source = kv0.2.source ∧ kv.2.target = kv0.2.target := by
  unfold bumpLink at h
  split at h
  · next l hf =>
    rcases mem_setA h with hm | hv
    · exact ⟨kv, hm, rfl, rfl⟩
    · obtain ⟨k', hk'⟩ := lookupA_mem hf
      refine ⟨(k', l), hk', ?_, ?_⟩
      · rw [hv]
      · rw [hv]
  · exact ⟨kv, h, rfl, rfl⟩

theorem mem_ensureLink {r : Rcd} {action : String} {lm : List (String × GLink)}
    {a t : String} {kv : String × GLink} (h : kv ∈ ensureLink r action lm a t) :
    kv ∈ lm ∨ kv.2 = newLink r action a t := by
  simp only [ensureLink] at h
  split at h
  · exact Or.inl h
  · rcases List.mem_append.mp h with h' | h'
    · exact Or.inl h'
    · right
      rw [List.mem_singleton.mp h']

theorem mem_addLink {r : Rcd} {action : String} {lm : List (String × GLink)}
    {a t : String} {kv : String × GLink} (h : kv ∈ addLink r action lm a t) :
    (∃ kv0 ∈ lm, kv.2.source = kv0.2.source ∧ kv.2.target = kv0.2.target) ∨
      (kv.2.source = a ∧ kv.2.target = t) := by
  obtain ⟨kv0, hkv0, hs, ht⟩ := mem_bumpLink h
  rcases mem_ensureLink hkv0 with h' | h'
  · exact Or.inl ⟨kv0, h', hs, ht⟩
  · right
    rw [hs, ht, h']
    exact ⟨rfl, rfl⟩

/-- Source/target endpoints of every link of the inner (per-actor) link
fold are either inherited or the folded actor/target pair. -/
theorem mem_linkFold_inner {r : Rcd} {action : String} {a : String}
    (targets : List String) :
    ∀ (lm : List (String × GLink)) (kv : String × GLink),
      kv ∈ targets.foldl (fun lm t => addLink r action lm a t) lm →
      (∃ kv0 ∈ lm, kv.2.source = kv0.2.source ∧ kv.2.target = kv0.2.target) ∨
        (kv.2.source = a ∧ ∃ t ∈ targets, kv.2.target = t) := by
  induction targets with
  | nil => exact fun lm kv h => Or.inl ⟨kv, h, rfl, rfl⟩
  | cons t ts ih =>
    intro lm kv h
    rcases ih _ kv h with ⟨kv0, hkv0, hs, hts⟩ | ⟨hs, t', ht', hts⟩
    · rcases mem_addLink hkv0 with ⟨kv1, hkv1, hs1, ht1⟩ | ⟨hs1, ht1⟩
      · exact Or.inl ⟨kv1, hkv1, hs.trans hs1, hts.trans ht1⟩
      · exact Or.inr ⟨hs.trans hs1, t, List.mem_cons_self t ts, hts.trans ht1⟩
    · exact Or.inr ⟨hs, t', List.mem_cons_of_mem t ht', hts⟩

/-- Source/target endpoints of every link after the full actors×targets
fold are either inherited or an (actor, target) pair of this record. -/
theorem mem_linkFold {r : Rcd} {action : String} (actors targets : List String) :
    ∀ (lm : List (String × GLink)) (kv : String × GLink),
      kv ∈ actors.foldl (fun lm a => targets.foldl (fun lm t => addLink r action lm a t) lm) lm →
      (∃ kv0 ∈ lm, kv.2.source = kv0.2.source ∧ kv.2.target = kv0.2.target) ∨
        ((∃ a ∈ actors, kv.2.source = a) ∧ ∃ t ∈ targets, kv.2.target = t) := by
  induction actors with
  | nil => exact fun lm kv h => Or.inl ⟨kv, h, rfl, rfl⟩
  | cons a as ih =>
    intro lm kv h
    rcases ih _ kv h with ⟨kv0, hkv0, hs, hts⟩ | ⟨⟨a', ha', hs⟩, t', ht', hts⟩
    · rcases mem_linkFold_inner targets lm kv0 hkv0 with ⟨kv1, hkv1, hs1, ht1⟩ | ⟨hs1, t', ht', ht1⟩
      · exact Or.inl ⟨kv1, hkv1, hs.trans hs1, hts.trans ht1⟩
      · exact Or.inr ⟨⟨a, List.mem_cons_self a as, hs.trans hs1⟩, t', ht', hts.trans ht1⟩
    · exact Or.inr ⟨⟨a', List.mem_cons_of_mem a ha', hs⟩, t', ht', hts⟩

/-- The referential-integrity invariant of the builder state: every link
endpoint is a node id. -/
def stOK (st : List GNode × List (String × GLink)) : Prop :=
  ∀ kv ∈ st.2, hasId st.1 kv.2.source ∧ hasId st.1 kv.2.target

theorem stOK_processRecord {st : List GNode × List (String × GLink)} {r : Rcd}
    (h : stOK st) : stOK (processRecord st r) := by
  unfold processRecord
  split
  · exact h
  · intro kv hkv
    simp only at hkv
    have hActors := foldl_hasId (addActor r (if r.Action = "" then "unknown" else r.Action))
      id (fun m a x => hasId_addActor_mono) (fun m a => hasId_addActor_self _ _ m a)
      (splitTrim r.Actor) st.1
    have hTargets := foldl_hasId (addTarget r (if r.Action = "" then "unknown" else r.Action))
      id (fun m t x => hasId_addTarget_mono) (fun m t => hasId_addTarget_self _ _ m t)
      (splitTrim r.Target)
      ((splitTrim r.Actor).foldl (addActor r (if r.Action = "" then "unknown" else r.Action)) st.1)
    rcases mem_linkFold (splitTrim r.Actor) (splitTrim r.Target) st.2 kv hkv with
      ⟨kv0, hkv0, hs, ht⟩ | ⟨⟨a, ha, hs⟩, t, ht, htt⟩
    · obtain ⟨hos, hot⟩ := h kv0 hkv0
      constructor
      · rw [hs]
        exact (hTargets).1 _ ((hActors).1 _ hos)
      · rw [ht]
        exact (hTargets).1 _ ((hActors).1 _ hot)
    · constructor
      · rw [hs]
        exact (hTargets).1 _ ((hActors).2 a ha)
      · rw [htt]
        exact (hTargets).2 t ht
end NetworkGraphRenderer

namespace NetworkGraphRenderer

open JsMap

theorem stOK_buildGraphFold (data : List Rcd) :
    stOK (data.foldl processRecord ([], [])) := by
  have : ∀ st, stOK st → stOK (data.foldl processRecord st) := by
    induction data with
    | nil => exact fun st h => h
    | cons r rs ih => exact fun st h => ih _ (stOK_processRecord h)
  refine this ([], []) ?_
  intro kv hkv
  cases hkv

theorem hasId_map_preserving {m : List GNode} {x : String} (f : GNode → GNode)
    (hf : ∀ n, (f n).id = n.id) (h : hasId m x) : hasId (m.map f) x := by
  obtain ⟨n, hn, hid⟩ := h
  exact ⟨f n, List.mem_map_of_mem f hn, (hf n).trans hid⟩

/-- Referential integrity of the derived (CSV) graph built by
`processData`: every link endpoint is a node id of the same build. -/
theorem buildGraph_OK (data : List Rcd) :
    ∀ l ∈ (buildGraph data).2,
      hasId (buildGraph data).1 l.source ∧ hasId (buildGraph data).1 l.target := by
  intro l hl
  unfold buildGraph at hl ⊢
  simp only at hl ⊢
  obtain ⟨kv, hkv, hkvl⟩ := List.mem_map.mp hl
  obtain ⟨hs, ht⟩ := stOK_buildGraphFold data kv hkv
  rw [← hkvl]
  constructor
  · exact hasId_map_preserving _ (fun n => rfl) hs
  · exact hasId_map_preserving _ (fun n => rfl) ht

theorem hasId_mergeNodeStep_mono {m : List GNode} {cn : GNode} {x : String}
    (h : hasId m x) : hasId (mergeNodeStep m cn) x := by
  unfold mergeNodeStep
  split
  · exact hasId_setNode_mono h
  · exact hasId_append_left h

theorem hasId_mergeNodeStep_self (m : List GNode) (cn : GNode) :
    hasId (mergeNodeStep m cn) cn.id := by
  unfold mergeNodeStep
  split
  · next pn hf =>
    have hid := (findNode_some hf).2
    have h2 : ({ pn with
        count := pn.count + cn.count,
        records := pn.records ++ cn.records,
        actions := cn.actions.foldl addSet pn.actions,
        type := "both" } : GNode).id = cn.id := hid
    rw [← h2]
    exact hasId_setNode_self _ _
  · exact ⟨cn, List.mem_append_right _ (List.mem_singleton_self _), rfl⟩

/-- Everything in the seeded political link map is (a copy of) an input
political link. -/
theorem mem_seedLinks (pl : List GLink) :
    ∀ (m : List (String × GLink)) (kv : String × GLink),
      kv ∈ pl.foldl (fun m l => setA m (l.source ++ "->" ++ l.target) l) m →
      kv ∈ m ∨ ∃ l0 ∈ pl, kv.2 = l0 := by
  induction pl with
  | nil => exact fun m kv h => Or.inl h
  | cons l ls ih =>
    intro m kv h
    rcases ih _ kv h with h' | ⟨l0, hl0, hv⟩
    · rcases mem_setA h' with h'' | hv
      · exact Or.inl h''
      · exact Or.inr ⟨l, List.mem_cons_self l ls, hv⟩
    · exact Or.inr ⟨l0, List.mem_cons_of_mem l hl0, hv⟩

theorem mem_mergeLinkStep {m : List (String × GLink)} {cl : GLink} {kv : String × GLink}
    (h : kv ∈ mergeLinkStep m cl) :
    (∃ kv0 ∈ m, kv.2.source = kv0.2.source ∧ kv.2.target = kv0.2.target) ∨
      (kv.2.source = cl.source ∧ kv.2.target = cl.target) := by
  unfold mergeLinkStep at h
  split at h
  · next pl hf =>
    rcases mem_setA h with hm | hv
    · exact Or.inl ⟨kv, hm, rfl, rfl⟩
    · obtain ⟨k', hk'⟩ := lookupA_mem hf
      refine Or.inl ⟨(k', pl), hk', ?_, ?_⟩
      · rw [hv]
      · rw [hv]
  · rcases List.mem_append.mp h with h' | h'
    · exact Or.inl ⟨kv, h', rfl, rfl⟩
    · right
      rw [List.mem_singleton.mp h']
      exact ⟨rfl, rfl⟩

theorem mem_mergeLinkFold (csvLinks : List GLink) :
    ∀ (m : List (String × GLink)) (kv : String × GLink),
      kv ∈ csvLinks.foldl mergeLinkStep m →
      (∃ kv0 ∈ m, kv.2.source = kv0.2.source ∧ kv.2.target = kv0.2.target) ∨
        ∃ cl ∈ csvLinks, kv.2.source = cl.source ∧ kv.2.target = cl.target := by
  induction csvLinks with
  | nil => exact fun m kv h => Or.inl ⟨kv, h, rfl, rfl⟩
  | cons cl cls ih =>
    intro m kv h
    rcases ih _ kv h with ⟨kv0, hkv0, hs, ht⟩ | ⟨cl', hcl', hs, ht⟩
    · rcases mem_mergeLinkStep hkv0 with ⟨kv1, hkv1, hs1, ht1⟩ | ⟨hs1, ht1⟩
      · exact Or.inl ⟨kv1, hkv1, hs.trans hs1, ht.trans ht1⟩
      · exact Or.inr ⟨cl, List.mem_cons_self cl cls, hs.trans hs1, ht.trans ht1⟩
    · exact Or.inr ⟨cl', List.mem_cons_of_mem cl hcl', hs, ht⟩

/-- Links surviving the `renderPoliticalNetwork` filter have both endpoints
among the political node ids. -/
theorem filterValidLinks_OK {ns : List GNode} {ls : List GLink} {l : GLink}
    (h : l ∈ filterValidLinks ns ls) : hasId ns l.source ∧ hasId ns l.target := by
  unfold filterValidLinks at h
  have hp := List.of_mem_filter h
  obtain ⟨h1, h2⟩ := (Bool.and_eq_true _ _).mp hp
  constructor
  · obtain ⟨n, hn, hb⟩ := List.any_eq_true.mp h1
    exact ⟨n, hn, eq_of_beq hb⟩
  · obtain ⟨n, hn, hb⟩ := List.any_eq_true.mp h2
    exact ⟨n, hn, eq_of_beq hb⟩

end NetworkGraphRenderer

namespace NetworkGraphRenderer

theorem mergeRadiusAdjust_id (maxC : Nat) (n : GNode) :
    (mergeRadiusAdjust maxC n).id = n.id := by
  unfold mergeRadiusAdjust
  split
  · rfl
  · rfl

end NetworkGraphRenderer

section ClaimC1

open JsMap NetworkGraphRenderer

/-- C1: referential integrity of the merged graph.  For arbitrary political
network data (nodes and links, including links whose endpoints are dangling
because a reference relationship pointed at an unresolved alias — these are
dropped by the `renderPoliticalNetwork` filter) and an arbitrary event-record
batch, every edge of the graph produced by the merge engine has both its
source id and its target id present as node ids of that same graph. -/
theorem claim_C1_merged_graph_referential_integrity :
    ∀ (politicalNodes : List GNode) (politicalLinks : List GLink) (data : List Rcd)
      (l : GLink),
      l ∈ (mergeWithPoliticalData politicalNodes
            (filterValidLinks politicalNodes politicalLinks)
            (buildGraph data).1 (buildGraph data).2).2 →
      hasId (mergeWithPoliticalData politicalNodes
            (filterValidLinks politicalNodes politicalLinks)
            (buildGraph data).1 (buildGraph data).2).1 l.source ∧
      hasId (mergeWithPoliticalData politicalNodes
            (filterValidLinks politicalNodes politicalLinks)
            (buildGraph data).1 (buildGraph data).2).1 l.target := by
  intro pn pl data l hl
  simp only [mergeWithPoliticalData] at hl ⊢
  by_cases hpn : pn.length = 0
  · rw [if_pos hpn] at hl ⊢
    exact buildGraph_OK data l hl
  · rw [if_neg hpn] at hl ⊢
    have hnm0 := foldl_hasId (fun m n => setNode m n) (fun n => n.id)
      (fun m a x h => hasId_setNode_mono h) (fun m a => hasId_setNode_self m a)
      pn ([] : List GNode)
    have hnm1 := foldl_hasId mergeNodeStep (fun n => n.id)
      (fun m a x h => hasId_mergeNodeStep_mono h) (fun m a => hasId_mergeNodeStep_self m a)
      (buildGraph data).1 (pn.foldl (fun m n => setNode m n) [])
    have liftPol : ∀ x, hasId pn x →
        hasId ((buildGraph data).1.foldl mergeNodeStep
          (pn.foldl (fun m n => setNode m n) [])) x := by
      intro x hx
      obtain ⟨n, hn, hid⟩ := hx
      exact hnm1.1 x (hid ▸ hnm0.2 n hn)
    have liftCsv : ∀ x, hasId (buildGraph data).1 x →
        hasId ((buildGraph data).1.foldl mergeNodeStep
          (pn.foldl (fun m n => setNode m n) [])) x := by
      intro x hx
      obtain ⟨n, hn, hid⟩ := hx
      exact hid ▸ hnm1.2 n hn
    obtain ⟨kv, hkv, hkvl⟩ := List.mem_map.mp hl
    rw [← hkvl]
    have hends :
        hasId ((buildGraph data).1.foldl mergeNodeStep
          (pn.foldl (fun m n => setNode m n) [])) kv.2.source ∧
        hasId ((buildGraph data).1.foldl mergeNodeStep
          (pn.foldl (fun m n => setNode m n) [])) kv.2.target := by
      rcases mem_mergeLinkFold (buildGraph data).2 _ kv hkv with
        ⟨kv0, hkv0, hs, ht⟩ | ⟨cl, hcl, hs, ht⟩
      · rcases mem_seedLinks (filterValidLinks pn pl) _ kv0 hkv0 with h0 | ⟨l0, hl0, hv⟩
        · cases h0
        · obtain ⟨hps, hpt⟩ := filterValidLinks_OK hl0
          constructor
          · rw [hs, hv]
            exact liftPol _ hps
          · rw [ht, hv]
            exact liftPol _ hpt
      · obtain ⟨hcs, hct⟩ := buildGraph_OK data cl hcl
        constructor
        · rw [hs]
          exact liftCsv _ hcs
        · rw [ht]
          exact liftCsv _ hct
    exact ⟨hasId_map_preserving _ (mergeRadiusAdjust_id _) hends.1,
           hasId_map_preserving _ (mergeRadiusAdjust_id _) hends.2⟩

/-- C1 witness: a political graph with one dangling link (its target has no
node, e.g. an alias that failed to resolve) merged with a graph derived from
one two-actor record; the dangling link is dropped and a surviving merged
edge has both endpoints present. -/
theorem claim_C1_merged_graph_referential_integrity_witness :
    (GLink.mk "NATO" "Russia" "condemn" 1 ["condemn"] [mkRcd "NATO, EU" "Russia" "condemn"]
        false none) ∈
      (mergeWithPoliticalData
        [⟨"NATO", "NATO", "political_figure", 1, [], [], none, true, some (15, 1)⟩]
        (filterValidLinks
          [⟨"NATO", "NATO", "political_figure", 1, [], [], none, true, some (15, 1)⟩]
          [⟨"NATO", "Ghost Alias", "political_connection", 1, [], [], true, some "ally"⟩])
        (buildGraph [mkRcd "NATO, EU" "Russia" "condemn"]).1
        (buildGraph [mkRcd "NATO, EU" "Russia" "condemn"]).2).2 ∧
    (hasId (mergeWithPoliticalData
        [⟨"NATO", "NATO", "political_figure", 1, [], [], none, true, some (15, 1)⟩]
        (filterValidLinks
          [⟨"NATO", "NATO", "political_figure", 1, [], [], none, true, some (15, 1)⟩]
          [⟨"NATO", "Ghost Alias", "political_connection", 1, [], [], true, some "ally"⟩])
        (buildGraph [mkRcd "NATO, EU" "Russia" "condemn"]).1
        (buildGraph [mkRcd "NATO, EU" "Russia" "condemn"]).2).1 "NATO" ∧
     hasId (mergeWithPoliticalData
        [⟨"NATO", "NATO", "political_figure", 1, [], [], none, true, some (15, 1)⟩]
        (filterValidLinks
          [⟨"NATO", "NATO", "political_figure", 1, [], [], none, true, some (15, 1)⟩]
          [⟨"NATO", "Ghost Alias", "political_connection", 1, [], [], true, some "ally"⟩])
        (buildGraph [mkRcd "NATO, EU" "Russia" "condemn"]).1
        (buildGraph [mkRcd "NATO, EU" "Russia" "condemn"]).2).1 "Russia") :=
  ⟨by decide,
   by
    have h := claim_C1_merged_graph_referential_integrity
      [⟨"NATO", "NATO", "political_figure", 1, [], [], none, true, some (15, 1)⟩]
      [⟨"NATO", "Ghost Alias", "political_connection", 1, [], [], true, some "ally"⟩]
      [mkRcd "NATO, EU" "Russia" "condemn"]
      (GLink.mk "NATO" "Russia" "condemn" 1 ["condemn"] [mkRcd "NATO, EU" "Russia" "condemn"]
        false none)
      (by decide)
    exact h⟩

end ClaimC1

namespace JsMap

theorem lookupA_nil {β : Type} (k : String) : lookupA ([] : List (String × β)) k = none := rfl

theorem lookupA_cons {β : Type} (hd : String × β) (tl : List (String × β)) (k : String) :
    lookupA (hd :: tl) k = if hd.1 == k then some hd.2 else lookupA tl k := by
  simp only [lookupA, List.find?_cons]
  cases hb : (hd.1 == k) <;> simp [hb]

theorem lookupA_append_single_self {β : Type} (m : List (String × β)) (k : String) (v : β)
    (h : lookupA m k = none) : lookupA (m ++ [(k, v)]) k = some v := by
  induction m with
  | nil => simp [lookupA_cons, lookupA_nil]
  | cons hd tl ih =>
    rw [lookupA_cons] at h
    rw [List.cons_append, lookupA_cons]
    cases hb : (hd.1 == k) with
    | true =>
      rw [hb] at h
      simp at h
    | false =>
      rw [hb] at h
      simp only [Bool.false_eq_true, if_false] at h ⊢
      exact ih h

theorem lookupA_map_setval {β : Type} (k k' : String) (v : β) (h : k' ≠ k)
    (m : List (String × β)) :
    lookupA (m.map (fun kv => if kv.1 == k then (kv.1, v) else kv)) k' = lookupA m k' := by
  induction m with
  | nil => rfl
  | cons hd tl ih =>
    rw [List.map_cons, lookupA_cons, lookupA_cons]
    by_cases hb : hd.1 = k
    · have hbt : (hd.1 == k) = true := beq_iff_eq.mpr hb
      have hb2 : (hd.1 == k') = false :=
        beq_eq_false_iff_ne.mpr (fun he => h (he.symm.trans hb))
      simp only [hbt, if_true]
      have hfst : ((hd.1, v).1 == k') = false := hb2
      rw [hfst]
      simp only [Bool.false_eq_true, if_false]
      exact ih
    · have hbf : (hd.1 == k) = false := beq_eq_false_iff_ne.mpr hb
      simp only [hbf, Bool.false_eq_true, if_false]
      cases hb2 : (hd.1 == k') with
      | true => simp [hb2]
      | false =>
        simp only [hb2, Bool.false_eq_true, if_false]
        exact ih

theorem lookupA_setA_self {β : Type} (m : List (String × β)) (k : String) (v : β) :
    lookupA (setA m k v) k = some v := by
  unfold setA
  split
  · next hany =>
    revert hany
    induction m with
    | nil =>
      intro hany
      cases hany
    | cons hd tl ih =>
      intro hany
      rw [List.map_cons, lookupA_cons]
      by_cases hb : hd.1 = k
      · have hbt : (hd.1 == k) = true := beq_iff_eq.mpr hb
        simp [hbt]
      · have hbf : (hd.1 == k) = false := beq_eq_false_iff_ne.mpr hb
        have hany' : tl.any (fun kv => kv.1 == k) = true := by
          simp only [List.any_cons, hbf, Bool.false_or] at hany
          exact hany
        have hfst : ((if hd.1 == k then (hd.1, v) else hd).1 == k) = false := by
          rw [hbf]
          simp only [Bool.false_eq_true, if_false]
          exact hbf
        rw [hfst]
        simp only [Bool.false_eq_true, if_false]
        exact ih hany'
  · next hany =>
    have hnone : lookupA m k = none := by
      unfold lookupA
      cases hf : m.find? (fun kv => kv.1 == k) with
      | none => rfl
      | some kv =>
        exfalso
        apply hany
        have hp := List.find?_some hf
        exact List.any_eq_true.mpr ⟨kv, List.mem_of_find?_eq_some hf, hp⟩
    exact lookupA_append_single_self m k v hnone

theorem lookupA_setA_ne {β : Type} (m : List (String × β)) (k k' : String) (v : β)
    (h : k' ≠ k) : lookupA (setA m k v) k' = lookupA m k' := by
  have hkk' : (k == k') = false := beq_eq_false_iff_ne.mpr (Ne.symm h)
  unfold setA
  split
  · exact lookupA_map_setval k k' v h m
  · unfold lookupA
    rw [List.find?_append]
    cases hf : m.find? (fun kv => kv.1 == k') with
    | some kv => rfl
    | none =>
      have h1 : List.find? (fun kv => kv.1 == k') [(k, v)] = none := by
        rw [List.find?_singleton]
        simp only [hkk', Bool.false_eq_true, if_false]
      rw [h1]
      rfl

end JsMap

namespace WikidataClassifier

open JsStr JsMap

/-- Inversion of a dispatching `classifyActor` prefix: every earlier
resolution stage missed, the promise id is the fresh one, and the new state
registers the promise under both name forms. -/
theorem classifyStart_dispatch_inv {s : WDState} {a : String} {s1 : WDState} {pid : Nat}
    (h : classifyStart s a = (s1, .dispatch pid)) :
    lookupA manualOverrides (trimS a) = none ∧
    lookupA manualOverrides (normalizeName (trimS a)) = none ∧
    lookupA s.cache (trimS a) = none ∧
    lookupA s.cache (normalizeName (trimS a)) = none ∧
    lookupA s.pendingQueries (trimS a) = none ∧
    lookupA s.pendingQueries (normalizeName (trimS a)) = none ∧
    pid = s.nextPromiseId ∧
    s1 = { s with
      pendingQueries :=
        if normalizeName (trimS a) ≠ trimS a then
          setA (setA s.pendingQueries (trimS a) s.nextPromiseId)
            (normalizeName (trimS a)) s.nextPromiseId
        else setA s.pendingQueries (trimS a) s.nextPromiseId,
      dispatched := s.dispatched ++ [normalizeName (trimS a)],
      nextPromiseId := s.nextPromiseId + 1 } := by
  simp only [classifyStart] at h
  split at h
  · simp at h
  · split at h
    · simp at h
    · split at h
      · simp at h
      · split at h
        · simp at h
        · split at h
          · simp at h
          · split at h
            · simp at h
            · split at h
              · simp at h
              · rename_i x1 hmo1 x2 hmo2 x3 hc1 x4 hc2 x5 hp1 x6 hp2
                injection h with h1 h2
                injection h2 with h3
                exact ⟨hmo1, hmo2, hc1, hc2, hp1, hp2, h3.symm, h1.symm⟩

end WikidataClassifier

namespace WikidataClassifier

open JsStr JsMap

/-- After a dispatch registers the promise under both forms, looking up the
normalized name always finds it. -/
theorem lookupA_pending_self (sp : List (String × Nat)) (o1 n : String) (pid : Nat) :
    lookupA (if n ≠ o1 then setA (setA sp o1 pid) n pid else setA sp o1 pid) n =
      some pid := by
  by_cases hno : n = o1
  · rw [if_neg (by simp [hno]), hno]
    exact lookupA_setA_self sp o1 pid
  · rw [if_pos hno]
    exact lookupA_setA_self _ n pid

/-- Any name the dispatch state maps that the prior state did not map is
mapped to the fresh promise id. -/
theorem lookupA_pending_other {sp : List (String × Nat)} {o1 n o2 : String} {pid qid : Nat}
    (h2 : lookupA sp o2 = none)
    (hq : lookupA (if n ≠ o1 then setA (setA sp o1 pid) n pid else setA sp o1 pid) o2 =
      some qid) : qid = pid := by
  by_cases ho2n : o2 = n
  · rw [ho2n, lookupA_pending_self] at hq
    exact (Option.some.inj hq).symm
  · by_cases ho2o1 : o2 = o1
    · by_cases hno : n ≠ o1
      · rw [if_pos hno, lookupA_setA_ne _ n o2 pid ho2n, ho2o1,
          lookupA_setA_self] at hq
        exact (Option.some.inj hq).symm
      · rw [if_neg hno, ho2o1, lookupA_setA_self] at hq
        exact (Option.some.inj hq).symm
    · by_cases hno : n ≠ o1
      · rw [if_pos hno, lookupA_setA_ne _ n o2 pid ho2n,
          lookupA_setA_ne _ o1 o2 pid ho2o1, h2] at hq
        cases hq
      · rw [if_neg hno, lookupA_setA_ne _ o1 o2 pid ho2o1, h2] at hq
        cases hq

end WikidataClassifier

section ClaimC7

open JsStr JsMap WikidataClassifier

/-- C7: in-flight de-duplication.  If one `classifyActor` call dispatched an
external lookup (registering the pending promise under both the original and
the normalized form), then a second call whose name has the same canonical
(normalized) form dispatches no external lookup from the resulting state —
whatever form it supplies — and, unless it is answered even earlier by the
blank guard, a manual override or a cache hit for its own original form, it
awaits exactly the pending promise the first call created. -/
theorem claim_C7_inflight_dedup :
    ∀ (s : WDState) (a1 a2 : String) (s1 : WDState) (pid : Nat),
      normalizeName (trimS a2) = normalizeName (trimS a1) →
      classifyStart s a1 = (s1, .dispatch pid) →
      ((∀ q, (classifyStart s1 a2).2 ≠ .dispatch q) ∧
        (classifyStart s1 a2).1.dispatched = s1.dispatched) ∧
      (trimS a2 ≠ "" →
        lookupA manualOverrides (trimS a2) = none →
        lookupA s.cache (trimS a2) = none →
        lookupA s.pendingQueries (trimS a2) = none →
        (classifyStart s1 a2).2 = .joined pid) := by
  intro s a1 a2 s1 pid hnorm hd
  obtain ⟨hmo1, hmo2, hc1, hc2, hp1, hp2, hpid, hs1⟩ := classifyStart_dispatch_inv hd
  subst hpid
  subst hs1
  rcases hC : classifyStart _ a2 with ⟨s2, o2⟩
  simp only [classifyStart] at hC
  split at hC
  · next hblank =>
    injection hC with hC1 hC2
    subst hC1
    subst hC2
    refine ⟨⟨by simp, rfl⟩, ?_⟩
    intro hne _ _ _
    exfalso
    rcases hblank with hb | hb
    · exact hne (by rw [hb]; rfl)
    · exact hne hb
  · next hblank =>
    split at hC
    · next ov hov =>
      injection hC with hC1 hC2
      subst hC1
      subst hC2
      refine ⟨⟨by simp, rfl⟩, ?_⟩
      intro _ hmoO2 _ _
      rw [hov] at hmoO2
      cases hmoO2
    · next hov1 =>
      split at hC
      · next ov hov =>
        exfalso
        rw [hnorm] at hov
        rw [hmo2] at hov
        cases hov
      · next hov2 =>
        split at hC
        · next c hcache =>
          injection hC with hC1 hC2
          subst hC1
          subst hC2
          refine ⟨⟨by simp, rfl⟩, ?_⟩
          intro _ _ hcO2 _
          have hcache' : lookupA s.cache (trimS a2) = some c := hcache
          rw [hcache'] at hcO2
          cases hcO2
        · next hcache1 =>
          split at hC
          · next c hcache =>
            exfalso
            rw [hnorm] at hcache
            have hcache' : lookupA s.cache (normalizeName (trimS a1)) = some c := hcache
            rw [hc2] at hcache'
            cases hcache'
          · next hcache2 =>
            split at hC
            · next qid hpend =>
              injection hC with hC1 hC2
              subst hC1
              subst hC2
              refine ⟨⟨by simp, rfl⟩, ?_⟩
              intro _ _ _ hpO2
              have hpend' : lookupA
                  (if normalizeName (trimS a1) ≠ trimS a1 then
                    setA (setA s.pendingQueries (trimS a1) s.nextPromiseId)
                      (normalizeName (trimS a1)) s.nextPromiseId
                  else setA s.pendingQueries (trimS a1) s.nextPromiseId)
                  (trimS a2) = some qid := hpend
              have := lookupA_pending_other hpO2 hpend'
              rw [this]
            · next hpend1 =>
              split at hC
              · next qid hpend =>
                injection hC with hC1 hC2
                subst hC1
                subst hC2
                have hpend' : lookupA
                    (if normalizeName (trimS a1) ≠ trimS a1 then
                      setA (setA s.pendingQueries (trimS a1) s.nextPromiseId)
                        (normalizeName (trimS a1)) s.nextPromiseId
                    else setA s.pendingQueries (trimS a1) s.nextPromiseId)
                    (normalizeName (trimS a2)) = some qid := hpend
                rw [hnorm, lookupA_pending_self] at hpend'
                have hqid := (Option.some.inj hpend').symm
                subst hqid
                exact ⟨⟨by simp, rfl⟩, fun _ _ _ _ => rfl⟩
              · next hpend2 =>
                exfalso
                have hpend' : lookupA
                    (if normalizeName (trimS a1) ≠ trimS a1 then
                      setA (setA s.pendingQueries (trimS a1) s.nextPromiseId)
                        (normalizeName (trimS a1)) s.nextPromiseId
                    else setA s.pendingQueries (trimS a1) s.nextPromiseId)
                    (normalizeName (trimS a2)) = none := hpend2
                rw [hnorm, lookupA_pending_self] at hpend'
                cases hpend'

end ClaimC7

section ClaimC7W

open JsStr JsMap WikidataClassifier

/-- C7 witness: a first call with `"The governments"` dispatches promise 0
and registers it under both that form and the canonical
`"The government"`; a concurrent second call with the differently spelled
`"The  governments"` (same canonical form) dispatches nothing and joins
promise 0. -/
theorem claim_C7_inflight_dedup_witness :
    normalizeName (trimS "The  governments") = normalizeName (trimS "The governments") ∧
    classifyStart ⟨[], [], [], 0⟩ "The governments" =
      (⟨[], [("The governments", 0), ("The government", 0)], ["The government"], 1⟩,
        .dispatch 0) ∧
    (∀ q, (classifyStart
      ⟨[], [("The governments", 0), ("The government", 0)], ["The government"], 1⟩
      "The  governments").2 ≠ .dispatch q) ∧
    (classifyStart
      ⟨[], [("The governments", 0), ("The government", 0)], ["The government"], 1⟩
      "The  governments").2 = .joined 0 := by
  have h := claim_C7_inflight_dedup ⟨[], [], [], 0⟩ "The governments" "The  governments"
    ⟨[], [("The governments", 0), ("The government", 0)], ["The government"], 1⟩ 0
    (by decide) (by decide)
  exact ⟨by decide, by decide, h.1.1,
    h.2 (by decide) (by decide) (by decide) (by decide)⟩

end ClaimC7W

namespace JsStr

theorem toNat_ofNat_valid (n : Nat) (h : n < 55296) : (Char.ofNat n).toNat = n := by
  unfold Char.ofNat
  rw [dif_pos (Or.inl h)]
  unfold Char.ofNatAux Char.toNat
  simp [UInt32.toNat, BitVec.toNat_ofNatLt]

theorem char_eq_of_toNat_eq {c d : Char} (h : c.toNat = d.toNat) : c = d := by
  apply Char.ext
  exact UInt32.toNat.inj h

theorem toNat_lowA (c : Char) :
    (lowA c).toNat = if 65 ≤ c.toNat ∧ c.toNat ≤ 90 then c.toNat + 32 else c.toNat := by
  unfold lowA
  split
  · next h => exact toNat_ofNat_valid _ (by omega)
  · rfl

theorem isJsWS_lowA (c : Char) : isJsWS (lowA c) = isJsWS c := by
  have ht := toNat_lowA c
  by_cases h : 65 ≤ c.toNat ∧ c.toNat ≤ 90
  · rw [if_pos h] at ht
    have hL : isJsWS (lowA c) = false := by
      unfold isJsWS
      rw [ht]
      simp only [Bool.or_eq_false_iff, Bool.and_eq_false_iff, decide_eq_false_iff_not]
      omega
    have hR : isJsWS c = false := by
      unfold isJsWS
      simp only [Bool.or_eq_false_iff, Bool.and_eq_false_iff, decide_eq_false_iff_not]
      omega
    rw [hL, hR]
  · rw [if_neg h] at ht
    unfold isJsWS
    rw [ht]

theorem not_wordChar_of_ws {c : Char} (h : isJsWS c = true) : isWordChar c = false := by
  unfold isJsWS at h
  unfold isWordChar
  simp only [Bool.or_eq_true, Bool.and_eq_true, decide_eq_true_eq] at h
  simp only [Bool.or_eq_false_iff, Bool.and_eq_false_iff, decide_eq_false_iff_not]
  omega

theorem lowA_eq_of_cases {c lo up : Char} (hlo : lo.toNat < 65 ∨ 90 < lo.toNat)
    (hup : up.toNat + 32 = lo.toNat) (hup2 : 65 ≤ up.toNat ∧ up.toNat ≤ 90) :
    lowA c = lo ↔ c = lo ∨ c = up := by
  constructor
  · intro h
    have ht := congrArg Char.toNat h
    rw [toNat_lowA] at ht
    split at ht
    · right
      exact char_eq_of_toNat_eq (by omega)
    · left
      exact char_eq_of_toNat_eq ht
  · intro h
    rcases h with rfl | rfl
    · have ht : (lowA c).toNat = c.toNat := by
        rw [toNat_lowA, if_neg (by omega)]
      exact char_eq_of_toNat_eq ht
    · apply char_eq_of_toNat_eq
      rw [toNat_lowA, if_pos hup2]
      omega

theorem lowA_eq_s {c : Char} : lowA c = 's' ↔ c = 's' ∨ c = 'S' :=
  lowA_eq_of_cases (by decide) (by decide) (by decide)

theorem lowA_eq_e {c : Char} : lowA c = 'e' ↔ c = 'e' ∨ c = 'E' :=
  lowA_eq_of_cases (by decide) (by decide) (by decide)

theorem lowA_eq_i {c : Char} : lowA c = 'i' ↔ c = 'i' ∨ c = 'I' :=
  lowA_eq_of_cases (by decide) (by decide) (by decide)

end JsStr

namespace JsStr

theorem startsWithL_iff {p l : List Char} :
    startsWithL p l = true ↔ ∃ rest, l = p ++ rest := by
  induction p generalizing l with
  | nil => simp [startsWithL]
  | cons q qs ih =>
    cases l with
    | nil =>
      simp only [startsWithL]
      constructor
      · intro h
        cases h
      · rintro ⟨rest, h⟩
        cases h
    | cons c cs =>
      simp only [startsWithL, Bool.and_eq_true, beq_iff_eq]
      rw [ih]
      constructor
      · rintro ⟨rfl, rest, rfl⟩
        exact ⟨rest, rfl⟩
      · rintro ⟨rest, h⟩
        injection h with h1 h2
        exact ⟨h1.symm, rest, h2⟩

theorem startsWithL_append_of_le {p u : List Char} (v : List Char)
    (h : p.length ≤ u.length) : startsWithL p (u ++ v) = startsWithL p u := by
  induction p generalizing u with
  | nil => simp [startsWithL]
  | cons q qs ih =>
    cases u with
    | nil => simp at h
    | cons c cs =>
      simp only [List.cons_append, startsWithL]
      congr 1
      exact ih (by simpa using h)

theorem mem_of_startsWithL_long {p u : List Char} {c : Char} {v : List Char}
    (h : startsWithL p (u ++ c :: v) = true) (hlen : u.length < p.length) : c ∈ p := by
  induction u generalizing p with
  | nil =>
    cases p with
    | nil => simp at hlen
    | cons q qs =>
      simp only [List.nil_append, startsWithL, Bool.and_eq_true, beq_iff_eq] at h
      rw [h.1]
      exact List.mem_cons_self _ _
  | cons d ds ih =>
    cases p with
    | nil => simp at hlen
    | cons q qs =>
      simp only [List.cons_append, startsWithL, Bool.and_eq_true] at h
      exact List.mem_cons_of_mem _ (ih h.2 (by simpa using hlen))

theorem headD_of_startsWithL {q : Char} {qs l : List Char} (d : Char)
    (h : startsWithL (q :: qs) l = true) : l.headD d = q := by
  cases l with
  | nil => cases h
  | cons c cs =>
    simp only [startsWithL, Bool.and_eq_true, beq_iff_eq] at h
    simpa using h.1.symm

theorem hasSub_iff {l pat : List Char} :
    hasSub l pat = true ↔ ∃ u v, l = u ++ pat ++ v := by
  induction l with
  | nil =>
    simp only [hasSub]
    rw [startsWithL_iff]
    constructor
    · rintro ⟨rest, h⟩
      exact ⟨[], rest, by simp [h]⟩
    · rintro ⟨u, v, h⟩
      have hu : u = [] := by
        cases u with
        | nil => rfl
        | cons a as => cases h
      subst hu
      have hp : pat = [] := by
        cases pat with
        | nil => rfl
        | cons a as => cases h
      subst hp
      exact ⟨[], rfl⟩
  | cons c cs ih =>
    simp only [hasSub, Bool.or_eq_true]
    rw [startsWithL_iff, ih]
    constructor
    · rintro (⟨rest, h⟩ | ⟨u, v, h⟩)
      · exact ⟨[], rest, by simp [h]⟩
      · exact ⟨c :: u, v, by simp [h]⟩
    · rintro ⟨u, v, h⟩
      cases u with
      | nil =>
        left
        exact ⟨v, by simpa using h⟩
      | cons a as =>
        right
        injection h with h1 h2
        exact ⟨as, v, h2⟩

theorem mem_of_mem_dropWhileL {p : Char → Bool} {l : List Char} {c : Char}
    (h : c ∈ l.dropWhile p) : c ∈ l := by
  induction l with
  | nil => exact h
  | cons d ds ih =>
    rw [List.dropWhile_cons] at h
    split at h
    · exact List.mem_cons_of_mem _ (ih h)
    · exact h

theorem mem_trimL {l : List Char} {c : Char} (h : c ∈ trimL l) : c ∈ l := by
  unfold trimL at h
  rw [List.mem_reverse] at h
  have h2 := mem_of_mem_dropWhileL h
  rw [List.mem_reverse] at h2
  exact mem_of_mem_dropWhileL h2

theorem mem_collapseGo {l : List Char} {b : Bool} {c : Char}
    (h : c ∈ collapseGo b l) : c ∈ l ∨ c = sp := by
  induction l generalizing b with
  | nil => cases h
  | cons d ds ih =>
    unfold collapseGo at h
    split at h
    · split at h
      · rcases ih h with h' | h'
        · exact Or.inl (List.mem_cons_of_mem _ h')
        · exact Or.inr h'
      · rcases List.mem_cons.mp h with h' | h'
        · exact Or.inr h'
        · rcases ih h' with h'' | h''
          · exact Or.inl (List.mem_cons_of_mem _ h'')
          · exact Or.inr h''
    · rcases List.mem_cons.mp h with h' | h'
      · exact Or.inl (h' ▸ List.mem_cons_self _ _)
      · rcases ih h' with h'' | h''
        · exact Or.inl (List.mem_cons_of_mem _ h'')
        · exact Or.inr h''

theorem dropWhile_head_false {p : Char → Bool} {l : List Char} {c : Char}
    {cs : List Char} : l.dropWhile p = c :: cs → p c = false := by
  induction l with
  | nil =>
    intro h
    cases h
  | cons d ds ih =>
    intro h
    rw [List.dropWhile_cons] at h
    split at h
    · exact ih h
    · next hp =>
      injection h with h1 h2
      subst h1
      simpa using hp

theorem dropWhile_eq_self_of_head {p : Char → Bool} {l : List Char}
    (h : ∀ c cs, l = c :: cs → p c = false) : l.dropWhile p = l := by
  cases l with
  | nil => rfl
  | cons c cs =>
    rw [List.dropWhile_cons, h c cs rfl]
    simp

end JsStr

namespace JsStr

theorem trimL_eq_self {l : List Char}
    (hh : ∀ c cs, l = c :: cs → isJsWS c = false)
    (hl : ∀ c cs, l.reverse = c :: cs → isJsWS c = false) : trimL l = l := by
  unfold trimL
  rw [dropWhile_eq_self_of_head hh, dropWhile_eq_self_of_head hl, List.reverse_reverse]

theorem trimL_decomp (l : List Char) :
    l.dropWhile isJsWS =
      trimL l ++ (((l.dropWhile isJsWS).reverse.takeWhile isJsWS)).reverse := by
  unfold trimL
  have h := List.takeWhile_append_dropWhile (p := isJsWS)
    (l := (l.dropWhile isJsWS).reverse)
  calc l.dropWhile isJsWS
      = ((l.dropWhile isJsWS).reverse).reverse := by rw [List.reverse_reverse]
    _ = ((l.dropWhile isJsWS).reverse.takeWhile isJsWS ++
          (l.dropWhile isJsWS).reverse.dropWhile isJsWS).reverse := by rw [h]
    _ = _ := by rw [List.reverse_append]

theorem trimL_head_not_ws {l : List Char} {c : Char} {cs : List Char}
    (h : trimL l = c :: cs) : isJsWS c = false := by
  have hd := trimL_decomp l
  rw [h] at hd
  exact dropWhile_head_false (l := l) hd

theorem trimL_last_not_ws {l : List Char} {c : Char} {cs : List Char}
    (h : (trimL l).reverse = c :: cs) : isJsWS c = false := by
  unfold trimL at h
  rw [List.reverse_reverse] at h
  exact dropWhile_head_false h

theorem trimL_idem (l : List Char) : trimL (trimL l) = trimL l :=
  trimL_eq_self (fun c cs h => trimL_head_not_ws h) (fun c cs h => trimL_last_not_ws h)

/-- The shape invariant of collapsed text: whitespace chars are single
spaces never followed by whitespace. -/
def collapsedB : List Char → Bool
  | [] => true
  | [c] => !isJsWS c || c == sp
  | c :: d :: rest => (!isJsWS c || (c == sp && !isJsWS d)) && collapsedB (d :: rest)

theorem collapse_fix (l : List Char) (h : collapsedB l = true) :
    collapseGo false l = l ∧
      ((∀ c cs, l = c :: cs → isJsWS c = false) → collapseGo true l = l) := by
  induction l with
  | nil => exact ⟨rfl, fun _ => rfl⟩
  | cons c cs ih =>
    cases cs with
    | nil =>
      simp only [collapsedB, Bool.or_eq_true, Bool.not_eq_eq_eq_not, Bool.not_true,
        beq_iff_eq] at h
      constructor
      · unfold collapseGo
        cases hw : isJsWS c with
        | true =>
          have hc : c = sp := by
            rcases h with h | h
            · rw [hw] at h
              cases h
            · exact h
          simp only [hw, if_true]
          rw [hc]
          rfl
        | false => simp [hw, collapseGo]
      · intro hhead
        have hw := hhead c [] rfl
        unfold collapseGo
        simp [hw, collapseGo]
    | cons d rest =>
      simp only [collapsedB, Bool.and_eq_true] at h
      obtain ⟨hc, hcs⟩ := h
      obtain ⟨ihA, ihB⟩ := ih hcs
      constructor
      · cases hw : isJsWS c with
        | false =>
          unfold collapseGo
          simp only [hw, Bool.false_eq_true, if_false]
          rw [ihA]
        | true =>
          have hcsp : c = sp ∧ isJsWS d = false := by
            simp only [Bool.or_eq_true, Bool.not_eq_eq_eq_not, Bool.not_true,
              Bool.and_eq_true, beq_iff_eq] at hc
            rcases hc with h' | h'
            · rw [hw] at h'
              cases h'
            · exact ⟨h'.1, by simpa using h'.2⟩
          unfold collapseGo
          simp only [hw, if_true, Bool.false_eq_true, if_false]
          rw [ihB (fun c' cs' he => by
            injection he with he1 he2
            rw [← he1]
            exact hcsp.2)]
          rw [hcsp.1]
      · intro hhead
        have hw := hhead c (d :: rest) rfl
        unfold collapseGo
        simp only [hw, Bool.false_eq_true, if_false]
        rw [ihA]

theorem collapseGo_true_head {cs : List Char} {c : Char} {x : List Char}
    (h : collapseGo true cs = c :: x) : isJsWS c = false := by
  induction cs generalizing c x with
  | nil => cases h
  | cons d ds ih =>
    unfold collapseGo at h
    split at h
    · next hw =>
      simp only [if_true] at h
      exact ih h
    · next hw =>
      injection h with h1 h2
      rw [← h1]
      simpa using hw

theorem collapsedB_cons_intro {c : Char} {X : List Char} (hc : isJsWS c = false)
    (hX : collapsedB X = true) : collapsedB (c :: X) = true := by
  cases X with
  | nil => simp [collapsedB, hc]
  | cons d ds => simp [collapsedB, hc, hX]

theorem collapseGo_collapsedB : ∀ (l : List Char) (b : Bool),
    collapsedB (collapseGo b l) = true := by
  intro l
  induction l with
  | nil => intro b; rfl
  | cons c cs ih =>
    intro b
    unfold collapseGo
    cases hw : isJsWS c with
    | false =>
      simp only [Bool.false_eq_true, if_false]
      exact collapsedB_cons_intro hw (ih false)
    | true =>
      simp only [if_true]
      cases b with
      | true => exact ih true
      | false =>
        simp only [Bool.false_eq_true, if_false]
        cases hX : collapseGo true cs with
        | nil => rfl
        | cons d ds =>
          have hd : isJsWS d = false := collapseGo_true_head hX
          have := ih true
          rw [hX] at this
          simp [collapsedB, hd, this, sp]
end JsStr

namespace JsStr

theorem collapsedB_tail {c : Char} {cs : List Char}
    (h : collapsedB (c :: cs) = true) : collapsedB cs = true := by
  cases cs with
  | nil => rfl
  | cons d ds =>
    simp only [collapsedB, Bool.and_eq_true] at h
    exact h.2

theorem collapsedB_dropWhile {p : Char → Bool} {l : List Char}
    (h : collapsedB l = true) : collapsedB (l.dropWhile p) = true := by
  induction l with
  | nil => rfl
  | cons c cs ih =>
    rw [List.dropWhile_cons]
    split
    · exact ih (collapsedB_tail h)
    · exact h

theorem collapsedB_append_left {u v : List Char}
    (h : collapsedB (u ++ v) = true) : collapsedB u = true := by
  induction u with
  | nil => rfl
  | cons c us ih =>
    cases us with
    | nil =>
      cases v with
      | nil => exact h
      | cons d ds =>
        simp only [List.cons_append, List.nil_append, collapsedB, Bool.and_eq_true] at h
        rcases Bool.or_eq_true _ _ |>.mp h.1 with h' | h'
        · simp [collapsedB, h']
        · simp only [Bool.and_eq_true, beq_iff_eq] at h'
          simp [collapsedB, h'.1, sp]
    | cons e us' =>
      simp only [List.cons_append, collapsedB, Bool.and_eq_true] at h ⊢
      refine ⟨h.1, ?_⟩
      have := ih
      simp only [List.cons_append, Bool.and_eq_true] at this
      exact this h.2

theorem collapsedB_trimL {l : List Char} (h : collapsedB l = true) :
    collapsedB (trimL l) = true := by
  have h1 : collapsedB (l.dropWhile isJsWS) = true := collapsedB_dropWhile h
  have hd := trimL_decomp l
  rw [hd] at h1
  exact collapsedB_append_left h1

/-- The whitespace state at the end of a block, as seen by `collapseGo`. -/
def endSt (b : Bool) : List Char → Bool
  | [] => b
  | c :: cs => endSt (isJsWS c) cs

theorem collapseGo_cons (b : Bool) (c : Char) (cs : List Char) :
    collapseGo b (c :: cs) =
      if isJsWS c then
        (if b then collapseGo true cs else sp :: collapseGo true cs)
      else c :: collapseGo false cs := rfl

theorem collapseGo_append : ∀ (u v : List Char) (b : Bool),
    collapseGo b (u ++ v) = collapseGo b u ++ collapseGo (endSt b u) v := by
  intro u
  induction u with
  | nil => intro v b; rfl
  | cons c cs ih =>
    intro v b
    rw [List.cons_append, collapseGo_cons, collapseGo_cons b c cs]
    have hend : endSt b (c :: cs) = endSt (isJsWS c) cs := rfl
    rw [hend]
    cases hw : isJsWS c with
    | true =>
      simp only [if_true]
      cases b with
      | true =>
        simp only [if_true]
        exact ih v true
      | false =>
        simp only [Bool.false_eq_true, if_false, List.cons_append]
        rw [ih v true]
    | false =>
      simp only [Bool.false_eq_true, if_false, List.cons_append]
      rw [ih v false]

theorem collapseGo_all_not_ws {B : List Char} (h : ∀ c ∈ B, isJsWS c = false) :
    ∀ s, collapseGo s B = B := by
  induction B with
  | nil => intro s; rfl
  | cons c cs ih =>
    intro s
    unfold collapseGo
    rw [h c (List.mem_cons_self c cs)]
    simp only [Bool.false_eq_true, if_false]
    rw [ih (fun d hd => h d (List.mem_cons_of_mem c hd)) false]

theorem collapseGo_false_ne_nil {l : List Char} (h : l ≠ []) :
    collapseGo false l ≠ [] := by
  cases l with
  | nil => exact absurd rfl h
  | cons c cs =>
    unfold collapseGo
    split
    · simp
    · simp

theorem collapseGo_ends_sp : ∀ (l : List Char) (b : Bool),
    (∀ c, l.getLast? = some c → isJsWS c = true) →
    collapseGo b l = [] ∨ ∃ C, collapseGo b l = C ++ [sp] := by
  intro l
  induction l with
  | nil => exact fun b _ => Or.inl rfl
  | cons c cs ih =>
    intro b h
    cases cs with
    | nil =>
      have hw : isJsWS c = true := h c rfl
      unfold collapseGo
      rw [hw]
      simp only [if_true]
      cases b with
      | true => exact Or.inl rfl
      | false =>
        right
        exact ⟨[], rfl⟩
    | cons d ds =>
      have h' : ∀ e, (d :: ds).getLast? = some e → isJsWS e = true := by
        intro e he
        exact h e (by rw [List.getLast?_cons_cons]; exact he)
      unfold collapseGo
      cases hw : isJsWS c with
      | false =>
        simp only [Bool.false_eq_true, if_false]
        rcases ih false h' with h'' | ⟨C, hC⟩
        · exact absurd h'' (collapseGo_false_ne_nil (by simp))
        · right
          exact ⟨c :: C, by rw [hC]; rfl⟩
      | true =>
        simp only [if_true]
        cases b with
        | true => exact ih true h'
        | false =>
          simp only [Bool.false_eq_true, if_false]
          rcases ih true h' with h'' | ⟨C, hC⟩
          · right
            refine ⟨[], ?_⟩
            rw [h'']
            rfl
          · right
            exact ⟨sp :: C, by rw [hC]; rfl⟩

end JsStr

namespace JsStr

theorem map_eq_cons {f : Char → Char} {l : List Char} {a : Char} {r : List Char}
    (h : l.map f = a :: r) : ∃ c t, l = c :: t ∧ f c = a ∧ t.map f = r := by
  cases l with
  | nil => cases h
  | cons c t =>
    injection h with h1 h2
    exact ⟨c, t, rfl, h1, h2⟩

theorem reBoundary_of_ws_head {rx : List Char}
    (hx : ∀ a, rx.head? = some a → isJsWS a = true) : reBoundary rx = true := by
  cases rx with
  | nil => rfl
  | cons a t =>
    have ha := not_wordChar_of_ws (hx a rfl)
    simp [reBoundary, ha]

theorem any_congr_chars {l : List (List Char)} {p q : List Char → Bool}
    (h : ∀ x ∈ l, p x = q x) : l.any p = l.any q := by
  induction l with
  | nil => rfl
  | cons a t ih =>
    simp only [List.any_cons]
    rw [h a (List.mem_cons_self a t), ih (fun x hx => h x (List.mem_cons_of_mem _ hx))]

theorem startsWithL_false_of_short {p u : List Char}
    (h : u.length < p.length) : startsWithL p u = false := by
  cases hsw : startsWithL p u with
  | false => rfl
  | true =>
    obtain ⟨rest, hr⟩ := startsWithL_iff.mp hsw
    rw [hr, List.length_append] at h
    omega

theorem testOne_decomp {rpat rB rx1 rx2 : List Char}
    (hrpat : ∀ c ∈ rpat, isJsWS c = false)
    (hx1 : ∀ a, rx1.head? = some a → isJsWS a = true)
    (hx2 : ∀ a, rx2.head? = some a → isJsWS a = true) :
    (startsWithL rpat (rB ++ rx1) && reBoundary ((rB ++ rx1).drop rpat.length)) =
    (startsWithL rpat (rB ++ rx2) && reBoundary ((rB ++ rx2).drop rpat.length)) := by
  by_cases hlen : rpat.length ≤ rB.length
  · rw [startsWithL_append_of_le rx1 hlen, startsWithL_append_of_le rx2 hlen]
    have hd1 : (rB ++ rx1).drop rpat.length = rB.drop rpat.length ++ rx1 :=
      List.drop_append_of_le_length hlen
    have hd2 : (rB ++ rx2).drop rpat.length = rB.drop rpat.length ++ rx2 :=
      List.drop_append_of_le_length hlen
    rw [hd1, hd2]
    cases hdB : rB.drop rpat.length with
    | nil =>
      simp only [List.nil_append]
      rw [reBoundary_of_ws_head hx1, reBoundary_of_ws_head hx2]
    | cons d rest => simp [reBoundary]
  · push_neg at hlen
    have hf : ∀ rx : List Char, (∀ a, rx.head? = some a → isJsWS a = true) →
        startsWithL rpat (rB ++ rx) = false := by
      intro rx hx
      cases rx with
      | nil =>
        rw [List.append_nil]
        exact startsWithL_false_of_short hlen
      | cons a t =>
        cases hsw : startsWithL rpat (rB ++ a :: t) with
        | false => rfl
        | true =>
          exfalso
          have ha := mem_of_startsWithL_long hsw hlen
          have h1 := hrpat a ha
          have h2 := hx a rfl
          rw [h2] at h1
          cases h1
    rw [hf rx1 hx1, hf rx2 hx2]
    simp

end JsStr

namespace JsStr

theorem tb_decomp (l : List Char) :
    ∃ l0 B, l = l0 ++ B ∧ (∀ c ∈ B, isJsWS c = false) ∧
      (∀ c, l0.getLast? = some c → isJsWS c = true) := by
  refine ⟨(l.reverse.dropWhile (fun c => !isJsWS c)).reverse,
          (l.reverse.takeWhile (fun c => !isJsWS c)).reverse, ?_, ?_, ?_⟩
  · have h := List.takeWhile_append_dropWhile (p := fun c => !isJsWS c) (l := l.reverse)
    calc l = l.reverse.reverse := (List.reverse_reverse l).symm
      _ = (l.reverse.takeWhile (fun c => !isJsWS c) ++
            l.reverse.dropWhile (fun c => !isJsWS c)).reverse := by rw [h]
      _ = _ := List.reverse_append _ _
  · intro c hc
    rw [List.mem_reverse] at hc
    have := List.mem_takeWhile_imp hc
    simpa using this
  · intro c hc
    rw [List.getLast?_reverse] at hc
    cases hdw : l.reverse.dropWhile (fun c => !isJsWS c) with
    | nil =>
      rw [hdw] at hc
      cases hc
    | cons d t =>
      rw [hdw] at hc
      have hdc : d = c := by
        simpa using hc
      have := dropWhile_head_false hdw
      rw [hdc] at this
      simpa using this

theorem getLast?_map_lowA (x : List Char) :
    ((x.map lowA).reverse).head? = (x.getLast?).map lowA := by
  rw [← List.map_reverse, List.head?_map, List.head?_reverse]

theorem reTestTail_decomp {alts : List (List Char)} {tail : List Char}
    (hpat : ∀ alt ∈ alts, ∀ c ∈ alt ++ tail, isJsWS c = false)
    {x1 x2 B : List Char}
    (hB : ∀ c ∈ B, isJsWS c = false)
    (h1 : ∀ a, x1.getLast? = some a → isJsWS a = true)
    (h2 : ∀ a, x2.getLast? = some a → isJsWS a = true) :
    reTestTail alts tail (x1 ++ B) = reTestTail alts tail (x2 ++ B) := by
  unfold reTestTail
  have hr : ∀ x : List Char,
      ((x ++ B).map lowA).reverse = (B.map lowA).reverse ++ (x.map lowA).reverse := by
    intro x
    rw [List.map_append, List.reverse_append]
  have hx : ∀ x : List Char, (∀ a, x.getLast? = some a → isJsWS a = true) →
      ∀ a, ((x.map lowA).reverse).head? = some a → isJsWS a = true := by
    intro x hxl a ha
    rw [getLast?_map_lowA] at ha
    cases hgl : x.getLast? with
    | none =>
      rw [hgl] at ha
      cases ha
    | some c =>
      rw [hgl] at ha
      have hac : lowA c = a := by simpa using ha
      rw [← hac, isJsWS_lowA]
      exact hxl c hgl
  rw [hr x1, hr x2]
  apply any_congr_chars
  intro alt halt
  apply testOne_decomp
  · intro c hc
    rw [List.mem_reverse] at hc
    exact hpat alt halt c hc
  · exact hx x1 h1
  · exact hx x2 h2

theorem collapseGo_last_ws {l0 : List Char}
    (hl0 : ∀ c, l0.getLast? = some c → isJsWS c = true) :
    ∀ a, (collapseGo false l0).getLast? = some a → isJsWS a = true := by
  intro a ha
  rcases collapseGo_ends_sp l0 false hl0 with h0 | ⟨C, hC⟩
  · rw [h0] at ha
    cases ha
  · rw [hC] at ha
    have : (C ++ [sp]).getLast? = some sp := by
      rw [← List.head?_reverse, List.reverse_append]
      rfl
    rw [this] at ha
    have hasp : sp = a := by simpa using ha
    rw [← hasp]
    rfl

end JsStr

namespace JsStr

theorem trimL_collapse_eq_self {w : List Char} (hw : trimL w = w) (hne : w ≠ []) :
    trimL (collapseL w) = collapseL w := by
  obtain ⟨l0, B, hdec, hB, hl0⟩ := tb_decomp w
  have hcol : collapseL w = collapseGo false l0 ++ B := by
    rw [hdec]
    unfold collapseL
    rw [collapseGo_append, collapseGo_all_not_ws hB]
  apply trimL_eq_self
  · intro c cs hc
    cases hwc : w with
    | nil => exact absurd hwc hne
    | cons w0 w' =>
      have hw0 : isJsWS w0 = false := trimL_head_not_ws (by rw [hw]; exact hwc)
      have : collapseL w = w0 :: collapseGo false w' := by
        unfold collapseL
        rw [hwc, collapseGo_cons, hw0]
        simp
      rw [this] at hc
      injection hc with hc1 hc2
      rw [← hc1]
      exact hw0
  · intro c cs hc
    cases hBc : B with
    | nil =>
      rw [hBc, List.append_nil] at hdec
      have hlast : ∀ a, w.getLast? = some a → isJsWS a = true := by
        intro a ha
        exact hl0 a (by rw [← hdec]; exact ha)
      cases hrev : w.reverse with
      | nil =>
        have : w = [] := by simpa using congrArg List.reverse hrev
        exact absurd this hne
      | cons d ds =>
        have hdws : isJsWS d = false := trimL_last_not_ws (by rw [hw]; exact hrev)
        have hgl : w.getLast? = some d := by
          rw [← List.head?_reverse, hrev]
          rfl
        have := hlast d hgl
        rw [this] at hdws
        cases hdws
    | cons b B' =>
      rw [hcol, hBc] at hc
      rw [List.reverse_append] at hc
      cases hrB : (b :: B').reverse with
      | nil => simp at hrB
      | cons e es =>
        rw [hrB] at hc
        injection hc with hc1 hc2
        have he : e ∈ b :: B' := by
          rw [← List.mem_reverse, hrB]
          exact List.mem_cons_self _ _
        rw [← hc1]
        exact hB e (by rw [hBc]; exact he)

theorem reTest_trim_collapse {alts : List (List Char)} {tail : List Char}
    (hpat : ∀ alt ∈ alts, ∀ c ∈ alt ++ tail, isJsWS c = false)
    {w : List Char} (hw : trimL w = w) :
    reTestTail alts tail (trimL (collapseL w)) = reTestTail alts tail w := by
  by_cases hne : w = []
  · subst hne
    rfl
  obtain ⟨l0, B, hdec, hB, hl0⟩ := tb_decomp w
  have hcol : collapseL w = collapseGo false l0 ++ B := by
    rw [hdec]
    unfold collapseL
    rw [collapseGo_append, collapseGo_all_not_ws hB]
  rw [trimL_collapse_eq_self hw hne, hcol]
  conv_rhs => rw [hdec]
  exact reTestTail_decomp hpat hB (collapseGo_last_ws hl0) hl0

end JsStr

namespace JsStr

theorem dropWhile_append_keep {p : Char → Bool} :
    ∀ (u : List Char) {m : List Char}, (∀ a t, m = a :: t → p a = false) →
      ∃ u2, (u ++ m).dropWhile p = u2 ++ m := by
  intro u
  induction u with
  | nil =>
    intro m hm
    refine ⟨[], ?_⟩
    simp only [List.nil_append]
    exact dropWhile_eq_self_of_head hm
  | cons c u' ih =>
    intro m hm
    rw [List.cons_append, List.dropWhile_cons]
    cases hp : p c with
    | true =>
      simp only [if_true]
      exact ih hm
    | false =>
      simp only [Bool.false_eq_true, if_false]
      exact ⟨c :: u', rfl⟩

theorem trimL_append_nonws_tail {u : List Char} {c : Char} (hc : isJsWS c = false) :
    ∃ u2, trimL (u ++ [c]) = u2 ++ [c] := by
  obtain ⟨u1, h1⟩ := dropWhile_append_keep (p := isJsWS) u (m := [c])
    (fun a t ha => by
      injection ha with ha1 ha2
      rw [← ha1]
      exact hc)
  refine ⟨u1, ?_⟩
  unfold trimL
  rw [h1]
  have h3 : (u1 ++ [c]).reverse = c :: u1.reverse := by simp
  rw [h3, List.dropWhile_cons, hc]
  simp

theorem getLast?_trim_collapse {z : List Char} {c : Char}
    (h : z.getLast? = some c) (hc : isJsWS c = false) :
    (trimL (collapseL z)).getLast? = some c := by
  have hrev : z.reverse.head? = some c := by rw [List.head?_reverse]; exact h
  cases hzr : z.reverse with
  | nil =>
    rw [hzr] at hrev
    cases hrev
  | cons d t =>
    rw [hzr] at hrev
    have hdc : d = c := by simpa using hrev
    subst hdc
    have hz : z = t.reverse ++ [d] := by
      have := congrArg List.reverse hzr
      rw [List.reverse_reverse] at this
      rw [this]
      exact List.reverse_cons d t
    have hcol : collapseL z = collapseGo false t.reverse ++ [d] := by
      rw [hz]
      unfold collapseL
      rw [collapseGo_append]
      have : collapseGo (endSt false t.reverse) [d] = [d] :=
        collapseGo_all_not_ws (by
          intro e he
          have : e = d := by simpa using he
          rw [this]
          exact hc) _
      rw [this]
    rw [hcol]
    obtain ⟨u2, hu2⟩ := trimL_append_nonws_tail (u := collapseGo false t.reverse) hc
    rw [hu2, ← List.head?_reverse, List.reverse_append]
    rfl

theorem reTest_false_of_getLast {alts : List (List Char)} {tail y : List Char} {tr : List Char}
    (htr : tail.reverse = 's' :: tr)
    (hy : ∀ a, ((y.map lowA).reverse).head? = some a → a ≠ 's') :
    reTestTail alts tail y = false := by
  unfold reTestTail
  rw [List.any_eq_false]
  intro alt halt
  have hrpat : (alt ++ tail).reverse = 's' :: (tr ++ alt.reverse) := by
    rw [List.reverse_append, htr]
    rfl
  simp only [hrpat]
  cases hsw : startsWithL ('s' :: (tr ++ alt.reverse)) ((y.map lowA).reverse) with
  | false => simp [hsw]
  | true =>
    exfalso
    obtain ⟨rest, hr⟩ := startsWithL_iff.mp hsw
    have : ((y.map lowA).reverse).head? = some 's' := by
      rw [hr]
      rfl
    exact hy 's' this rfl

end JsStr

namespace JsStr

theorem map_lowA_collapseGo : ∀ (l : List Char) (b : Bool),
    (collapseGo b l).map lowA = collapseGo b (l.map lowA) := by
  intro l
  induction l with
  | nil => intro b; rfl
  | cons c cs ih =>
    intro b
    rw [List.map_cons, collapseGo_cons, collapseGo_cons, isJsWS_lowA]
    cases hw : isJsWS c with
    | true =>
      simp only [if_true]
      cases b with
      | true => exact ih true
      | false =>
        simp only [Bool.false_eq_true, if_false, List.map_cons]
        rw [ih true]
        rfl
    | false =>
      simp only [Bool.false_eq_true, if_false, List.map_cons]
      rw [ih false]

theorem map_lowA_dropWhileWS (l : List Char) :
    (l.dropWhile isJsWS).map lowA = (l.map lowA).dropWhile isJsWS := by
  have hcomp : (isJsWS ∘ lowA) = isJsWS := funext isJsWS_lowA
  rw [List.dropWhile_map, hcomp]

theorem map_lowA_trimL (l : List Char) :
    (trimL l).map lowA = trimL (l.map lowA) := by
  simp only [trimL, List.map_reverse, map_lowA_dropWhileWS]

theorem map_lowA_collapseL (l : List Char) :
    (collapseL l).map lowA = collapseL (l.map lowA) :=
  map_lowA_collapseGo l false

theorem collapseGo_fix_any {q : List Char} (hq : collapsedB q = true)
    (hh : ∀ a t, q = a :: t → isJsWS a = false) : ∀ s, collapseGo s q = q := by
  intro s
  cases s with
  | false => exact (collapse_fix q hq).1
  | true => exact (collapse_fix q hq).2 hh

theorem endSt_append : ∀ (u v : List Char) (b : Bool),
    endSt b (u ++ v) = endSt (endSt b u) v := by
  intro u
  induction u with
  | nil => intro v b; rfl
  | cons c cs ih =>
    intro v b
    show endSt (isJsWS c) (cs ++ v) = endSt (endSt (isJsWS c) cs) v
    exact ih v (isJsWS c)

theorem hasSub_trim_collapse {x q : List Char}
    (hqB : collapsedB q = true)
    (hqh : ∀ a t, q = a :: t → isJsWS a = false)
    (hql : ∀ a t, q.reverse = a :: t → isJsWS a = false)
    (hne : q ≠ [])
    (hsub : hasSub x q = true) : hasSub (trimL (collapseL x)) q = true := by
  obtain ⟨u, v, hx⟩ := hasSub_iff.mp hsub
  have hcol : collapseL x =
      collapseGo false u ++ (q ++ collapseGo (endSt (endSt false u) q) v) := by
    rw [hx]
    unfold collapseL
    rw [collapseGo_append, collapseGo_append, collapseGo_fix_any hqB hqh, endSt_append,
      List.append_assoc]
  set U := collapseGo false u with hU
  set V := collapseGo (endSt (endSt false u) q) v with hV
  have hhead : ∀ a t, (q ++ V) = a :: t → isJsWS a = false := by
    intro a t hat
    cases hq1 : q with
    | nil => exact absurd hq1 hne
    | cons q0 qt =>
      rw [hq1, List.cons_append] at hat
      injection hat with h1 h2
      rw [← h1]
      exact hqh q0 qt hq1
  obtain ⟨U1, hU1⟩ := dropWhile_append_keep U (m := q ++ V) hhead
  have hback : ∀ a t, (q.reverse ++ U1.reverse) = a :: t → isJsWS a = false := by
    intro a t hat
    cases hq2 : q.reverse with
    | nil =>
      have : q = [] := by simpa using congrArg List.reverse hq2
      exact absurd this hne
    | cons r0 rt =>
      rw [hq2, List.cons_append] at hat
      injection hat with h1 h2
      rw [← h1]
      exact hql r0 rt hq2
  obtain ⟨V2, hV2⟩ := dropWhile_append_keep V.reverse (m := q.reverse ++ U1.reverse) hback
  have htrim : trimL (collapseL x) = U1 ++ (q ++ V2.reverse) := by
    unfold trimL
    rw [hcol, hU1]
    have hrev : (U1 ++ (q ++ V)).reverse = V.reverse ++ (q.reverse ++ U1.reverse) := by
      simp [List.reverse_append, List.append_assoc]
    rw [hrev, hV2]
    simp [List.reverse_append, List.append_assoc]
  rw [htrim]
  exact hasSub_iff.mpr ⟨U1, V2.reverse, (List.append_assoc U1 q V2.reverse).symm⟩

end JsStr

namespace WikidataClassifier

open JsStr

/-- Shape check on a pattern: non-empty, already in collapsed form, and
bordered by non-whitespace on both sides. -/
def niceQb (q : List Char) : Bool :=
  collapsedB q &&
  (match q with | [] => false | a :: _ => !isJsWS a) &&
  (match q.reverse with | [] => false | a :: _ => !isJsWS a)

theorem preservePlurals_nice : ∀ p ∈ preservePlurals, niceQb (p.data.map lowA) = true := by
  decide

theorem niceQb_spec {q : List Char} (h : niceQb q = true) :
    collapsedB q = true ∧ (∀ a t, q = a :: t → isJsWS a = false) ∧
    (∀ a t, q.reverse = a :: t → isJsWS a = false) ∧ q ≠ [] := by
  unfold niceQb at h
  obtain ⟨h12, h3⟩ := (Bool.and_eq_true _ _).mp h
  obtain ⟨h1, h2⟩ := (Bool.and_eq_true _ _).mp h12
  refine ⟨h1, ?_, ?_, ?_⟩
  · intro a t hat
    rw [hat] at h2
    simpa using h2
  · intro a t hat
    rw [hat] at h3
    simpa using h3
  · intro hnil
    rw [hnil] at h2
    cases h2

theorem shouldPreserve_trim_collapse {w : List Char}
    (h : shouldPreservePlural w = true) :
    shouldPreservePlural (trimL (collapseL w)) = true := by
  unfold shouldPreservePlural at h ⊢
  rw [List.any_eq_true] at h ⊢
  obtain ⟨p, hp, hsub⟩ := h
  refine ⟨p, hp, ?_⟩
  have hcomm : (trimL (collapseL w)).map lowA = trimL (collapseL (w.map lowA)) := by
    rw [map_lowA_trimL, map_lowA_collapseL]
  rw [hcomm]
  obtain ⟨hqB, hqh, hql, hne⟩ := niceQb_spec (preservePlurals_nice p hp)
  exact hasSub_trim_collapse hqB hqh hql hne hsub

end WikidataClassifier

namespace WikidataClassifier

open JsStr

/-- Shape check on an alternative of the plural regex: its last character is
a non-whitespace character other than `s`. -/
def altOK (alt : List Char) : Bool :=
  match alt.reverse with
  | [] => false
  | a :: _ => !isJsWS a && !(a == 's')

theorem pluralAlts_ok : ∀ alt ∈ pluralAlts, altOK alt = true := by decide

theorem reTest_true_shape {alts : List (List Char)} {tail l : List Char}
    (h : reTestTail alts tail l = true) :
    ∃ alt ∈ alts, startsWithL (alt ++ tail).reverse ((l.map lowA).reverse) = true := by
  simp only [reTestTail, List.any_eq_true] at h
  obtain ⟨alt, halt, hval⟩ := h
  exact ⟨alt, halt, ((Bool.and_eq_true _ _).mp hval).1⟩

theorem stripTrailingS_last_of_match {l : List Char}
    (h : reTestTail pluralAlts ['s'] l = true) :
    ∃ c0, (stripTrailingS l).getLast? = some c0 ∧ isJsWS c0 = false ∧ lowA c0 ≠ 's' := by
  obtain ⟨alt, halt, hsw⟩ := reTest_true_shape h
  have hok := pluralAlts_ok alt halt
  have hrpat : (alt ++ ['s']).reverse = 's' :: alt.reverse := by
    rw [List.reverse_append]
    rfl
  rw [hrpat] at hsw
  obtain ⟨rest, hr⟩ := startsWithL_iff.mp hsw
  rw [← List.map_reverse, List.cons_append] at hr
  obtain ⟨c, t, hlrev, hlc, hmap⟩ := map_eq_cons hr
  cases har : alt.reverse with
  | nil =>
    rw [altOK, har] at hok
    cases hok
  | cons a ar =>
    rw [har, List.cons_append] at hmap
    obtain ⟨c0, t1, ht, hlc0, hmt⟩ := map_eq_cons hmap
    have hok2 : isJsWS a = false ∧ (a == 's') = false := by
      simp only [altOK, har, Bool.and_eq_true, Bool.not_eq_eq_eq_not, Bool.not_true] at hok
      exact hok
    have hstrip : stripTrailingS l = t.reverse := by
      unfold stripTrailingS
      rw [hlrev]
      show (if c = 's' ∨ c = 'S' then t.reverse else l) = t.reverse
      rw [if_pos (lowA_eq_s.mp hlc)]
    refine ⟨c0, ?_, ?_, ?_⟩
    · rw [hstrip, ht, List.getLast?_reverse]
      rfl
    · rw [← isJsWS_lowA, hlc0]
      exact hok2.1
    · rw [hlc0]
      intro heq
      rw [heq] at hok2
      simp at hok2

theorem stripIesY_last_of_match {l : List Char}
    (h : reTestTail iesAlts ['i', 'e', 's'] l = true) :
    (stripIesY l).getLast? = some 'y' := by
  obtain ⟨alt, halt, hsw⟩ := reTest_true_shape h
  have hrpat : (alt ++ ['i', 'e', 's']).reverse = 's' :: 'e' :: 'i' :: alt.reverse := by
    rw [List.reverse_append]
    rfl
  rw [hrpat] at hsw
  obtain ⟨rest, hr⟩ := startsWithL_iff.mp hsw
  rw [← List.map_reverse, List.cons_append, List.cons_append, List.cons_append] at hr
  obtain ⟨c3, t3, h3, hc3, hm3⟩ := map_eq_cons hr
  obtain ⟨c2, t2, h2, hc2, hm2⟩ := map_eq_cons hm3
  obtain ⟨c1, t1, h1, hc1, hm1⟩ := map_eq_cons hm2
  have hstrip : stripIesY l = ('y' :: t1).reverse := by
    unfold stripIesY
    rw [h3, h2, h1]
    show (if (c3 = 's' ∨ c3 = 'S') ∧ (c2 = 'e' ∨ c2 = 'E') ∧ (c1 = 'i' ∨ c1 = 'I') then
        ('y' :: t1).reverse else l) = ('y' :: t1).reverse
    rw [if_pos ⟨lowA_eq_s.mp hc3, lowA_eq_e.mp hc2, lowA_eq_i.mp hc1⟩]
  rw [hstrip, List.getLast?_reverse]
  rfl

theorem reTest_false_on_y {z : List Char} {c0 : Char}
    (hz : z.getLast? = some c0) (hws : isJsWS c0 = false) (hs : lowA c0 ≠ 's') :
    reTestTail pluralAlts ['s'] (trimL (collapseL z)) = false ∧
    reTestTail iesAlts ['i', 'e', 's'] (trimL (collapseL z)) = false := by
  have hy := getLast?_trim_collapse hz hws
  have hhead : ∀ a, (((trimL (collapseL z)).map lowA).reverse).head? = some a → a ≠ 's' := by
    intro a ha
    rw [getLast?_map_lowA, hy] at ha
    have hla : lowA c0 = a := by simpa using ha
    rw [← hla]
    exact hs
  exact ⟨reTest_false_of_getLast rfl hhead, reTest_false_of_getLast rfl hhead⟩

theorem stripTrailingS_cases (l : List Char) :
    stripTrailingS l = l ∨ ∃ d t, l.reverse = d :: t ∧ stripTrailingS l = t.reverse := by
  unfold stripTrailingS
  cases hr : l.reverse with
  | nil => left; rfl
  | cons d t =>
    by_cases hc : d = 's' ∨ d = 'S'
    · right
      refine ⟨d, t, rfl, ?_⟩
      show (if d = 's' ∨ d = 'S' then t.reverse else l) = t.reverse
      rw [if_pos hc]
    · left
      show (if d = 's' ∨ d = 'S' then t.reverse else l) = l
      rw [if_neg hc]

theorem mem_stripTrailingS {l : List Char} {c : Char} (h : c ∈ stripTrailingS l) :
    c ∈ l := by
  rcases stripTrailingS_cases l with he | ⟨d, t, hr, he⟩
  · rw [he] at h
    exact h
  · rw [he] at h
    have h1 : c ∈ d :: t := List.mem_cons_of_mem _ (List.mem_reverse.mp h)
    rw [← hr] at h1
    exact List.mem_reverse.mp h1

theorem stripIesY_cases (l : List Char) :
    stripIesY l = l ∨ ∃ c3 c2 c1 t, l.reverse = c3 :: c2 :: c1 :: t ∧
      stripIesY l = ('y' :: t).reverse := by
  unfold stripIesY
  cases hr : l.reverse with
  | nil => left; rfl
  | cons c3 r1 =>
    cases r1 with
    | nil => left; rfl
    | cons c2 r2 =>
      cases r2 with
      | nil => left; rfl
      | cons c1 t =>
        by_cases hc : (c3 = 's' ∨ c3 = 'S') ∧ (c2 = 'e' ∨ c2 = 'E') ∧ (c1 = 'i' ∨ c1 = 'I')
        · right
          refine ⟨c3, c2, c1, t, rfl, ?_⟩
          show (if (c3 = 's' ∨ c3 = 'S') ∧ (c2 = 'e' ∨ c2 = 'E') ∧ (c1 = 'i' ∨ c1 = 'I') then
              ('y' :: t).reverse else l) = ('y' :: t).reverse
          rw [if_pos hc]
        · left
          show (if (c3 = 's' ∨ c3 = 'S') ∧ (c2 = 'e' ∨ c2 = 'E') ∧ (c1 = 'i' ∨ c1 = 'I') then
              ('y' :: t).reverse else l) = l
          rw [if_neg hc]

theorem mem_stripIesY {l : List Char} {c : Char} (h : c ∈ stripIesY l) :
    c ∈ l ∨ c = 'y' := by
  rcases stripIesY_cases l with he | ⟨c3, c2, c1, t, hr, he⟩
  · rw [he] at h
    exact Or.inl h
  · rw [he] at h
    have h1 : c ∈ 'y' :: t := List.mem_reverse.mp h
    rcases List.mem_cons.mp h1 with h2 | h2
    · exact Or.inr h2
    · have h3 : c ∈ c3 :: c2 :: c1 :: t :=
        List.mem_cons_of_mem _ (List.mem_cons_of_mem _ (List.mem_cons_of_mem _ h2))
      rw [← hr] at h3
      exact Or.inl (List.mem_reverse.mp h3)

theorem mem_singStep {l : List Char} {c : Char} (h : c ∈ singStep l) :
    c ∈ l ∨ c = 'y' := by
  unfold singStep at h
  split at h
  · exact Or.inl h
  · split at h
    · exact Or.inl (mem_stripTrailingS h)
    · split at h
      · exact mem_stripIesY h
      · exact Or.inl h

theorem stripPossessive_of_no_apos {l : List Char} (h : apos ∉ l) :
    stripPossessive l = l := by
  unfold stripPossessive
  cases hr : l.reverse with
  | nil => rfl
  | cons c rest =>
    have hc : c ≠ apos := by
      intro he
      subst he
      exact h (List.mem_reverse.mp (by rw [hr]; exact List.mem_cons_self _ _))
    cases rest with
    | nil =>
      show (if c = apos then List.reverse [] else l) = l
      rw [if_neg hc]
    | cons c2 rest2 =>
      have hc2 : c2 ≠ apos := by
        intro he
        subst he
        exact h (List.mem_reverse.mp
          (by rw [hr]; exact List.mem_cons_of_mem _ (List.mem_cons_self _ _)))
      show (if c = apos then (c2 :: rest2).reverse
          else if (c = 's' ∨ c = 'S') ∧ c2 = apos then rest2.reverse else l) = l
      rw [if_neg hc, if_neg (fun hand => hc2 hand.2)]

theorem singStep_second {w : List Char} (hw : trimL w = w) :
    singStep (trimL (collapseL (singStep w))) = trimL (collapseL (singStep w)) := by
  by_cases hp : shouldPreservePlural w = true
  · have h1 : singStep w = w := by
      unfold singStep
      rw [if_pos hp]
    rw [h1]
    have hp2 := shouldPreserve_trim_collapse hp
    unfold singStep
    rw [if_pos hp2]
  · by_cases hm1 : reTestTail pluralAlts ['s'] w = true
    · have h1 : singStep w = stripTrailingS w := by
        unfold singStep
        rw [if_neg hp, if_pos hm1]
      rw [h1]
      obtain ⟨c0, hz, hws, hs⟩ := stripTrailingS_last_of_match hm1
      obtain ⟨hf1, hf2⟩ := reTest_false_on_y hz hws hs
      unfold singStep
      rw [hf1, hf2]
      simp
    · by_cases hm2 : reTestTail iesAlts ['i', 'e', 's'] w = true
      · have h1 : singStep w = stripIesY w := by
          unfold singStep
          rw [if_neg hp, if_neg hm1, if_pos hm2]
        rw [h1]
        have hz := stripIesY_last_of_match hm2
        obtain ⟨hf1, hf2⟩ := reTest_false_on_y hz (by decide) (by decide)
        unfold singStep
        rw [hf1, hf2]
        simp
      · have h1 : singStep w = w := by
          unfold singStep
          rw [if_neg hp, if_neg hm1, if_neg hm2]
        rw [h1]
        have hpat1 : ∀ alt ∈ pluralAlts, ∀ c ∈ alt ++ ['s'], isJsWS c = false := by decide
        have hpat2 : ∀ alt ∈ iesAlts, ∀ c ∈ alt ++ ['i', 'e', 's'], isJsWS c = false := by
          decide
        have hb1 : reTestTail pluralAlts ['s'] w = false := by
          revert hm1
          cases reTestTail pluralAlts ['s'] w <;> simp
        have hb2 : reTestTail iesAlts ['i', 'e', 's'] w = false := by
          revert hm2
          cases reTestTail iesAlts ['i', 'e', 's'] w <;> simp
        have hf1 : reTestTail pluralAlts ['s'] (trimL (collapseL w)) = false := by
          rw [reTest_trim_collapse hpat1 hw]
          exact hb1
        have hf2 : reTestTail iesAlts ['i', 'e', 's'] (trimL (collapseL w)) = false := by
          rw [reTest_trim_collapse hpat2 hw]
          exact hb2
        unfold singStep
        rw [hf1, hf2]
        simp

end WikidataClassifier

namespace JsStr

theorem trim_collapse_idem (z : List Char) :
    trimL (collapseL (trimL (collapseL z))) = trimL (collapseL z) := by
  have hcb : collapsedB (trimL (collapseL z)) = true :=
    collapsedB_trimL (collapseGo_collapsedB z false)
  have hfix : collapseL (trimL (collapseL z)) = trimL (collapseL z) :=
    (collapse_fix _ hcb).1
  rw [hfix, trimL_idem]

end JsStr

section ClaimC6

open JsStr WikidataClassifier

/-- C6 counterexample: `normalizeName` is not idempotent on all raw strings.
On the two-apostrophe string `''` the first pass strips only the final
apostrophe (the possessive regex removes one apostrophe, optionally followed
by `s`), giving `'`; the second pass strips the remaining apostrophe, giving
the empty string, so `normalize(normalize(n)) ≠ normalize(n)`. -/
theorem claim_C6_counterexample :
    normalizeName (normalizeName (String.mk [apos, apos])) ≠
      normalizeName (String.mk [apos, apos]) := by
  decide

/-- C6 (amended): the Name Normalizer is idempotent on every raw name that
contains no ASCII apostrophe: for such `n`,
`normalizeName (normalizeName n) = normalizeName n`.  The proof tracks the
pipeline (trim, possessive strip, conditional singularization, whitespace
collapse, trim): the second pass's trim and possessive strip are no-ops on
the first pass's output, the singularization block cannot fire again — its
three guards are shown stable under `collapse ∘ trim` — and the final
collapse/trim fix the already-collapsed, already-trimmed output. -/
theorem claim_C6_idempotent_no_apostrophe (n : String)
    (h : ∀ c ∈ n.data, c ≠ apos) :
    normalizeName (normalizeName n) = normalizeName n := by
  by_cases hb : n = "" ∨ trimS n = ""
  · have h1 : normalizeName n = n := by
      unfold normalizeName
      rw [if_pos hb]
    rw [h1]
    exact h1
  · have h1 : normalizeName n =
        String.mk (trimL (collapseL (singStep (stripPossessive (trimL n.data))))) := by
      unfold normalizeName
      rw [if_neg hb]
    set n1 := trimL n.data with hn1
    have hnoap1 : apos ∉ n1 := fun ha => h apos (mem_trimL ha) rfl
    rw [stripPossessive_of_no_apos hnoap1] at h1
    set y := trimL (collapseL (singStep n1)) with hy
    rw [h1]
    by_cases hb2 : String.mk y = "" ∨ trimS (String.mk y) = ""
    · unfold normalizeName
      rw [if_pos hb2]
    · have h3 : normalizeName (String.mk y) =
          String.mk (trimL (collapseL (singStep (stripPossessive (trimL y))))) := by
        unfold normalizeName
        rw [if_neg hb2]
      rw [h3]
      have hty : trimL y = y := by
        rw [hy]
        exact trimL_idem _
      rw [hty]
      have hnoapy : apos ∉ y := by
        intro ha
        rw [hy] at ha
        have h4 := mem_trimL ha
        rcases mem_collapseGo h4 with h5 | h5
        · rcases mem_singStep h5 with h6 | h6
          · exact hnoap1 h6
          · exact absurd h6 (by decide)
        · exact absurd h5 (by decide)
      rw [stripPossessive_of_no_apos hnoapy]
      have hw1 : trimL n1 = n1 := trimL_idem _
      have hss : singStep y = y := by
        rw [hy]
        exact singStep_second hw1
      rw [hss, hy]
      exact congrArg String.mk (trim_collapse_idem _)

theorem claim_C6_idempotent_no_apostrophe_witness :
    (∀ c ∈ ("The  Ministers" : String).data, c ≠ apos) ∧
      normalizeName (normalizeName "The  Ministers") = normalizeName "The  Ministers" :=
  ⟨by decide, claim_C6_idempotent_no_apostrophe "The  Ministers" (by decide)⟩

end ClaimC6
